import Mathlib

/-! Verification development for the aios / Cerebrum iterative code-repair agent.

The Python sources are shallowly embedded: strings become lists of
characters, the structured-output resolver, tool-name codec, tool-call
decoder, test-feedback summarizer and the refinement-loop controllers
become total Lean functions, and places where the Python code can raise
are modelled with Except or Option so that raising is observable. -/

/-- Strings are modelled as lists of characters. -/
abbrev Str := List Char

/-- Conversion from Lean string literals to the character-list model. -/
def strL (s : String) : Str := s.data

/-- Opening curly brace character. -/
def obrC : Char := Char.ofNat 123

/-- Closing curly brace character. -/
def cbrC : Char := Char.ofNat 125

/-- Backtick character. -/
def btC : Char := Char.ofNat 96

/-- Whitespace characters of the regex class backslash-s and of str.strip,
restricted to ASCII: space, tab, newline, carriage return, vertical tab,
form feed. -/
def isPyWs (c : Char) : Bool :=
  c = ' ' || c = '\t' || c = '\n' || c = '\r' || c = Char.ofNat 11 || c = Char.ofNat 12

/-- Whitespace accepted between tokens by json.loads: space, tab, newline,
carriage return. -/
def isJsonWs (c : Char) : Bool :=
  c = ' ' || c = '\t' || c = '\n' || c = '\r'

/-- Decimal digit test. -/
def isDigitC (c : Char) : Bool := '0' ≤ c && c ≤ '9'

/-- Word characters of the regex class backslash-w (ASCII model; the Python
default also admits further unicode word characters, which none of the
verified claims depend on). -/
def isWordC (c : Char) : Bool :=
  ('a' ≤ c && c ≤ 'z') || ('A' ≤ c && c ≤ 'Z') || isDigitC c || c = '_'

/-- Python str.strip with no argument: drop whitespace from both ends. -/
def pyStrip (s : Str) : Str :=
  ((s.dropWhile isPyWs).reverse.dropWhile isPyWs).reverse

/-- Python str.strip with one-character argument, here used for
strip of newline characters only. -/
def stripNl (s : Str) : Str :=
  ((s.dropWhile (· = '\n')).reverse.dropWhile (· = '\n')).reverse

/-- Python str.splitlines, modelling only the newline character as a line
break (the sources only ever feed it newline-separated text). -/
def splitLinesAux : Str → Str → List Str
  | [], acc => if acc.isEmpty then [] else [acc.reverse]
  | c :: cs, acc =>
    if c = '\n' then acc.reverse :: splitLinesAux cs []
    else splitLinesAux cs (c :: acc)

/-- Python str.splitlines on newline characters. -/
def splitLines (s : Str) : List Str := splitLinesAux s []

/-- Python "newline".join. -/
def joinNl (ls : List Str) : Str := List.intercalate ['\n'] ls

/-- Leftmost occurrence of a pattern inside a string, as an index. -/
def findSubAux (pat : Str) : Str → Nat → Option Nat
  | [], i => if pat.isEmpty then some i else none
  | c :: cs, i =>
    if pat.isPrefixOf (c :: cs) then some i else findSubAux pat cs (i + 1)

/-- Index of the leftmost occurrence of pat in s, if any. -/
def findSub (pat s : Str) : Option Nat := findSubAux pat s 0

/-- Does pat occur as a contiguous substring of s. -/
def occursIn (pat s : Str) : Bool := (findSub pat s).isSome

/-- ASCII lower-casing of one character, as done by Python str.lower on the
ASCII range used by the sources. -/
def pyLowerChar (c : Char) : Char :=
  if 'A' ≤ c && c ≤ 'Z' then Char.ofNat (c.toNat + 32) else c

/-- ASCII model of Python str.lower. -/
def pyLower (s : Str) : Str := s.map pyLowerChar

/-- Numeric value of a decimal digit character. -/
def digitVal (c : Char) : Nat := c.toNat - 48

/-- Maximal run of decimal digits, folded into a number, returning the rest. -/
def readNatAux : Str → Nat → Nat × Str
  | [], acc => (acc, [])
  | c :: cs, acc =>
    if isDigitC c then readNatAux cs (acc * 10 + digitVal c) else (acc, c :: cs)

/-- Decimal digit character of a value below ten. -/
def digitChar (n : Nat) : Char := Char.ofNat (48 + n)

/-- Decimal digits of a natural number, most significant first; the
fuel argument only serves termination and any fuel with n below ten to
the fuel computes the digits. -/
def natDigitsAux : Nat → Nat → List Char
  | 0, _ => []
  | fuel + 1, n =>
    if n < 10 then [digitChar n]
    else natDigitsAux fuel (n / 10) ++ [digitChar (n % 10)]

/-- Decimal digits of a natural number, most significant first. -/
def natDigits (n : Nat) : List Char := natDigitsAux (n + 1) n

/-- Decimal rendering of an integer, as printed by json.dumps. -/
def intChars : Int → Str
  | Int.ofNat n => natDigits n
  | Int.negSucc n => '-' :: natDigits (n + 1)

/-- Lowercase hexadecimal digit of a value below sixteen. -/
def hexChar (n : Nat) : Char :=
  if n < 10 then Char.ofNat (48 + n) else Char.ofNat (87 + n)

/-- Value of a hexadecimal digit character, if it is one. -/
def hexDigitVal (c : Char) : Option Nat :=
  if isDigitC c then some (c.toNat - 48)
  else if 'a' ≤ c && c ≤ 'f' then some (c.toNat - 87)
  else if 'A' ≤ c && c ≤ 'F' then some (c.toNat - 55)
  else none

/-- JSON values as produced by json.loads: null, booleans, integers,
strings, arrays and objects.  Python also parses floating-point literals;
floating point is outside the scope of this embedding, so such literals
are modelled as parse failures (none of the verified claims involves
them).  Objects keep insertion order, as Python dicts do. -/
inductive JsonVal : Type where
  | jnull : JsonVal
  | jbool : Bool → JsonVal
  | jint : Int → JsonVal
  | jstr : Str → JsonVal
  | jarr : List JsonVal → JsonVal
  | jobj : List (Str × JsonVal) → JsonVal
deriving Repr

mutual

/-- Decidable equality on JSON values (the derive handler does not support
this nested inductive, so the decision procedure is written out). -/
def jsonDecEq : (a b : JsonVal) → Decidable (a = b)
  | .jnull, .jnull => isTrue rfl
  | .jbool x, .jbool y =>
    match decEq x y with
    | isTrue h => isTrue (by rw [h])
    | isFalse h => isFalse (fun hh => h (by injection hh))
  | .jint x, .jint y =>
    match decEq x y with
    | isTrue h => isTrue (by rw [h])
    | isFalse h => isFalse (fun hh => h (by injection hh))
  | .jstr x, .jstr y =>
    match decEq x y with
    | isTrue h => isTrue (by rw [h])
    | isFalse h => isFalse (fun hh => h (by injection hh))
  | .jarr x, .jarr y =>
    match jsonDecEqList x y with
    | isTrue h => isTrue (by rw [h])
    | isFalse h => isFalse (fun hh => h (by injection hh))
  | .jobj x, .jobj y =>
    match jsonDecEqMembers x y with
    | isTrue h => isTrue (by rw [h])
    | isFalse h => isFalse (fun hh => h (by injection hh))
  | .jnull, .jbool _ => isFalse (fun h => JsonVal.noConfusion h)
  | .jnull, .jint _ => isFalse (fun h => JsonVal.noConfusion h)
  | .jnull, .jstr _ => isFalse (fun h => JsonVal.noConfusion h)
  | .jnull, .jarr _ => isFalse (fun h => JsonVal.noConfusion h)
  | .jnull, .jobj _ => isFalse (fun h => JsonVal.noConfusion h)
  | .jbool _, .jnull => isFalse (fun h => JsonVal.noConfusion h)
  | .jbool _, .jint _ => isFalse (fun h => JsonVal.noConfusion h)
  | .jbool _, .jstr _ => isFalse (fun h => JsonVal.noConfusion h)
  | .jbool _, .jarr _ => isFalse (fun h => JsonVal.noConfusion h)
  | .jbool _, .jobj _ => isFalse (fun h => JsonVal.noConfusion h)
  | .jint _, .jnull => isFalse (fun h => JsonVal.noConfusion h)
  | .jint _, .jbool _ => isFalse (fun h => JsonVal.noConfusion h)
  | .jint _, .jstr _ => isFalse (fun h => JsonVal.noConfusion h)
  | .jint _, .jarr _ => isFalse (fun h => JsonVal.noConfusion h)
  | .jint _, .jobj _ => isFalse (fun h => JsonVal.noConfusion h)
  | .jstr _, .jnull => isFalse (fun h => JsonVal.noConfusion h)
  | .jstr _, .jbool _ => isFalse (fun h => JsonVal.noConfusion h)
  | .jstr _, .jint _ => isFalse (fun h => JsonVal.noConfusion h)
  | .jstr _, .jarr _ => isFalse (fun h => JsonVal.noConfusion h)
  | .jstr _, .jobj _ => isFalse (fun h => JsonVal.noConfusion h)
  | .jarr _, .jnull => isFalse (fun h => JsonVal.noConfusion h)
  | .jarr _, .jbool _ => isFalse (fun h => JsonVal.noConfusion h)
  | .jarr _, .jint _ => isFalse (fun h => JsonVal.noConfusion h)
  | .jarr _, .jstr _ => isFalse (fun h => JsonVal.noConfusion h)
  | .jarr _, .jobj _ => isFalse (fun h => JsonVal.noConfusion h)
  | .jobj _, .jnull => isFalse (fun h => JsonVal.noConfusion h)
  | .jobj _, .jbool _ => isFalse (fun h => JsonVal.noConfusion h)
  | .jobj _, .jint _ => isFalse (fun h => JsonVal.noConfusion h)
  | .jobj _, .jstr _ => isFalse (fun h => JsonVal.noConfusion h)
  | .jobj _, .jarr _ => isFalse (fun h => JsonVal.noConfusion h)

/-- Decidable equality on lists of JSON values. -/
def jsonDecEqList : (a b : List JsonVal) → Decidable (a = b)
  | [], [] => isTrue rfl
  | [], _ :: _ => isFalse (fun h => List.noConfusion h)
  | _ :: _, [] => isFalse (fun h => List.noConfusion h)
  | x :: xs, y :: ys =>
    match jsonDecEq x y, jsonDecEqList xs ys with
    | isTrue h1, isTrue h2 => isTrue (by rw [h1, h2])
    | isFalse h1, _ => isFalse (fun hh => h1 (by injection hh))
    | _, isFalse h2 => isFalse (fun hh => h2 (by injection hh))

/-- Decidable equality on lists of JSON object members. -/
def jsonDecEqMembers : (a b : List (Str × JsonVal)) → Decidable (a = b)
  | [], [] => isTrue rfl
  | [], _ :: _ => isFalse (fun h => List.noConfusion h)
  | _ :: _, [] => isFalse (fun h => List.noConfusion h)
  | (k1, v1) :: xs, (k2, v2) :: ys =>
    match decEq k1 k2, jsonDecEq v1 v2, jsonDecEqMembers xs ys with
    | isTrue e1, isTrue e2, isTrue e3 => isTrue (by rw [e1, e2, e3])
    | isFalse e1, _, _ =>
      isFalse (fun hh => by
        injection hh with hp ht
        injection hp with hk hv
        exact e1 hk)
    | _, isFalse e2, _ =>
      isFalse (fun hh => by
        injection hh with hp ht
        injection hp with hk hv
        exact e2 hv)
    | _, _, isFalse e3 =>
      isFalse (fun hh => by
        injection hh with hp ht
        exact e3 ht)

end

instance : DecidableEq JsonVal := jsonDecEq

/-- Is the value a JSON object, i.e. a Python dict after json.loads. -/
def JsonVal.isObj : JsonVal → Bool
  | .jobj _ => true
  | _ => false

/-- Escape of one character inside a JSON string literal, as produced by
json.dumps (quotation mark, backslash and control characters are escaped;
with ensure_ascii disabled every other character is emitted verbatim). -/
def escChar (c : Char) : Str :=
  if c = '"' then ['\\', '"']
  else if c = '\\' then ['\\', '\\']
  else if c = '\n' then ['\\', 'n']
  else if c = '\t' then ['\\', 't']
  else if c = '\r' then ['\\', 'r']
  else if c = Char.ofNat 8 then ['\\', 'b']
  else if c = Char.ofNat 12 then ['\\', 'f']
  else if c.toNat < 32 then
    ['\\', 'u', '0', '0', hexChar (c.toNat / 16), hexChar (c.toNat % 16)]
  else [c]

/-- Body of a JSON string literal: concatenated character escapes. -/
def dumpBody (s : Str) : Str := (s.map escChar).flatten

/-- JSON string literal for a string value. -/
def dumpStr (s : Str) : Str := '"' :: dumpBody s ++ ['"']

mutual

/-- Serialization of a JSON value in the style of json.dumps with the
default separators (comma-space and colon-space) and ensure_ascii
disabled, which is exactly how the resolver in
Cerebrum/cerebrum/utils/utils.py stringifies non-text input. -/
def jsonDumps : JsonVal → Str
  | .jnull => strL "null"
  | .jbool true => strL "true"
  | .jbool false => strL "false"
  | .jint n => intChars n
  | .jstr s => dumpStr s
  | .jarr vs => '[' :: dumpsElems vs ++ [']']
  | .jobj ms => obrC :: dumpsMembers ms ++ [cbrC]

/-- Comma-separated serializations of array elements. -/
def dumpsElems : List JsonVal → Str
  | [] => []
  | v :: vs => jsonDumps v ++ elemsSep vs

/-- Separator-led serializations of the remaining array elements. -/
def elemsSep : List JsonVal → Str
  | [] => []
  | v :: vs => ',' :: ' ' :: (jsonDumps v ++ elemsSep vs)

/-- Comma-separated serializations of object members. -/
def dumpsMembers : List (Str × JsonVal) → Str
  | [] => []
  | m :: ms => memberStr m ++ membersSep ms

/-- Separator-led serializations of the remaining object members. -/
def membersSep : List (Str × JsonVal) → Str
  | [] => []
  | m :: ms => ',' :: ' ' :: (memberStr m ++ membersSep ms)

/-- Serialization of one object member: key string, colon, space, value. -/
def memberStr : Str × JsonVal → Str
  | (k, v) => dumpStr k ++ ':' :: ' ' :: jsonDumps v

end

/-- Whitespace skipping between JSON tokens. -/
def skipWs (s : Str) : Str := s.dropWhile isJsonWs

/-- Assignment into a Python dict viewed as an insertion-ordered
association list: an existing key keeps its position and gets the new
value, a new key is appended at the end. -/
def objInsert (l : List (Str × JsonVal)) (k : Str) (v : JsonVal) :
    List (Str × JsonVal) :=
  match l with
  | [] => [(k, v)]
  | (k0, v0) :: t => if k0 = k then (k0, v) :: t else (k0, v0) :: objInsert t k v

/-- Body of a JSON string literal after the opening quote: literal
characters and escapes up to the closing quote, in the strict mode of
json.loads (unescaped control characters are rejected).  A unicode escape
must denote a unicode scalar value; Python additionally accepts lone
surrogate escapes, which a Lean Char cannot carry, so those are modelled
as parse failures (no verified claim involves them). -/
def parseStrBody : Str → Option (Str × Str)
  | [] => none
  | c :: rest =>
    if c = '"' then some ([], rest)
    else if c = '\\' then
      match rest with
      | [] => none
      | e :: rest2 =>
        if e = '"' then (parseStrBody rest2).map (fun p => ('"' :: p.1, p.2))
        else if e = '\\' then (parseStrBody rest2).map (fun p => ('\\' :: p.1, p.2))
        else if e = '/' then (parseStrBody rest2).map (fun p => ('/' :: p.1, p.2))
        else if e = 'n' then (parseStrBody rest2).map (fun p => ('\n' :: p.1, p.2))
        else if e = 't' then (parseStrBody rest2).map (fun p => ('\t' :: p.1, p.2))
        else if e = 'r' then (parseStrBody rest2).map (fun p => ('\r' :: p.1, p.2))
        else if e = 'b' then (parseStrBody rest2).map (fun p => (Char.ofNat 8 :: p.1, p.2))
        else if e = 'f' then (parseStrBody rest2).map (fun p => (Char.ofNat 12 :: p.1, p.2))
        else if e = 'u' then
          match rest2 with
          | h1 :: h2 :: h3 :: h4 :: rest3 =>
            match hexDigitVal h1, hexDigitVal h2, hexDigitVal h3, hexDigitVal h4 with
            | some a, some b, some c2, some d =>
              let n := ((a * 16 + b) * 16 + c2) * 16 + d
              if n < 55296 ∨ (57343 < n ∧ n < 1114112) then
                (parseStrBody rest3).map (fun p => (Char.ofNat n :: p.1, p.2))
              else none
            | _, _, _, _ => none
          | _ => none
        else none
    else if c.toNat < 32 then none
    else (parseStrBody rest).map (fun p => (c :: p.1, p.2))

/-- Leading natural-number token of a JSON number: a single zero, or a
nonzero digit followed by a maximal digit run (json.loads rejects leading
zeros, which this shape reproduces because the character after a leading
zero is then unconsumed trailing input). -/
def parseNatTok : Str → Option (Nat × Str)
  | [] => none
  | c :: cs =>
    if c = '0' then some (0, cs)
    else if isDigitC c then some (readNatAux cs (digitVal c))
    else none

/-- Rejection of a following fraction or exponent: Python would parse a
float there, which is outside the scope of this embedding. -/
def guardFloat (p : Int × Str) : Option (Int × Str) :=
  match p.2 with
  | [] => some p
  | c :: _ => if c = '.' ∨ c = 'e' ∨ c = 'E' then none else some p

/-- Leading integer token of the input, with sign. -/
def parseIntTok : Str → Option (Int × Str)
  | [] => none
  | c :: rest =>
    if c = '-' then
      match parseNatTok rest with
      | some (n, r) => guardFloat (-(n : Int), r)
      | none => none
    else
      match parseNatTok (c :: rest) with
      | some (n, r) => guardFloat ((n : Int), r)
      | none => none

mutual

/-- Recursive-descent JSON value scanner in the shape of json.loads.  The
fuel argument only serves termination; the top-level entry point supplies
more fuel than any input can consume, so it never runs out. -/
def parseVal : Nat → Str → Option (JsonVal × Str)
  | 0, _ => none
  | fuel + 1, cs0 =>
    let cs := skipWs cs0
    if (strL "null").isPrefixOf cs then some (.jnull, cs.drop 4)
    else if (strL "true").isPrefixOf cs then some (.jbool true, cs.drop 4)
    else if (strL "false").isPrefixOf cs then some (.jbool false, cs.drop 5)
    else
      match cs with
      | [] => none
      | c :: rest =>
        if c = '"' then
          match parseStrBody rest with
          | some (s, r) => some (.jstr s, r)
          | none => none
        else if c = '[' then
          let cs1 := skipWs rest
          match cs1 with
          | ']' :: r => some (.jarr [], r)
          | _ =>
            match parseVal fuel cs1 with
            | some (v, r) => parseArrTail fuel [v] r
            | none => none
        else if c = obrC then
          let cs1 := skipWs rest
          match cs1 with
          | c2 :: r =>
            if c2 = cbrC then some (.jobj [], r)
            else if c2 = '"' then
              match parseStrBody r with
              | some (k, r2) =>
                match skipWs r2 with
                | ':' :: r3 =>
                  match parseVal fuel r3 with
                  | some (v, r4) => parseObjTail fuel (objInsert [] k v) r4
                  | none => none
                | _ => none
              | none => none
            else none
          | [] => none
        else
          match parseIntTok (c :: rest) with
          | some (n, r) => some (.jint n, r)
          | none => none

/-- Remainder of an array after at least one element has been read:
either a closing bracket or a comma followed by the next element. -/
def parseArrTail : Nat → List JsonVal → Str → Option (JsonVal × Str)
  | 0, _, _ => none
  | fuel + 1, acc, cs0 =>
    match skipWs cs0 with
    | ']' :: r => some (.jarr acc.reverse, r)
    | ',' :: r =>
      match parseVal fuel r with
      | some (v, r2) => parseArrTail fuel (v :: acc) r2
      | none => none
    | _ => none

/-- Remainder of an object after at least one member has been read:
either a closing brace or a comma followed by the next member. -/
def parseObjTail : Nat → List (Str × JsonVal) → Str → Option (JsonVal × Str)
  | 0, _, _ => none
  | fuel + 1, acc, cs0 =>
    match skipWs cs0 with
    | c :: r =>
      if c = cbrC then some (.jobj acc, r)
      else if c = ',' then
        match skipWs r with
        | c2 :: r1 =>
          if c2 = '"' then
            match parseStrBody r1 with
            | some (k, r2) =>
              match skipWs r2 with
              | ':' :: r3 =>
                match parseVal fuel r3 with
                | some (v, r4) => parseObjTail fuel (objInsert acc k v) r4
                | none => none
              | _ => none
            | none => none
          else none
        | [] => none
      else none
    | [] => none

end

/-- Model of json.loads: parse one value, then require only whitespace to
remain.  Inputs the model does not cover (floating-point literals, lone
surrogate escapes) are reported as parse failures. -/
def jsonLoads (s : Str) : Option JsonVal :=
  match parseVal (s.length + 1) s with
  | some (v, rest) => if (skipWs rest).isEmpty then some v else none
  | none => none

/-- Marker of a fenced code block: three backticks. -/
def fenceMark : Str := [btC, btC, btC]

/-- Marker of a triple-quoted block: three quotation marks. -/
def tqMark : Str := ['"', '"', '"']

/-- Effective semantics of the block-trimming regex searches in
the resolver of Cerebrum/cerebrum/utils/utils.py, namely
re.search of marker, optional literal json, then non-greedy capture up
to the next marker, under DOTALL, followed by str.strip of the capture:
the opening is the leftmost marker occurrence, the capture runs to the
next marker occurrence after the opening (and after a directly attached
literal json, which the regex prefers to consume), and the capture is
stripped of surrounding whitespace.  Returns none exactly when the regex
finds no match. -/
def markerStrip (mark : Str) (s : Str) : Option Str :=
  match findSub mark s with
  | none => none
  | some i =>
    let r1 := s.drop (i + mark.length)
    let r2 := if (strL "json").isPrefixOf r1 then r1.drop 4 else r1
    match findSub mark r2 with
    | none => none
    | some j => some (pyStrip (r2.take j))

/-- Characters accepted by the lookahead class of the backtick-repair
regex: colon, comma, square brackets and curly braces. -/
def laClass (c : Char) : Bool :=
  c = ':' || c = ',' || c = '[' || c = ']' || c = obrC || c = cbrC

/-- Lookahead of the backtick-repair regex: optional whitespace then a
class character, or end of input (Python dollar also matches just before
one final trailing newline). -/
def lookaheadOk (after : Str) : Bool :=
  (match after.dropWhile isPyWs with
   | c :: _ => laClass c
   | [] => false) || after.isEmpty || after = ['\n']

/-- Model of the repair pass re.sub that rewrites a backtick-delimited
token into a quoted token when followed by optional whitespace and
punctuation or end of input.  The token cannot contain a backtick, so
the closing delimiter is the next backtick; on a failed match the scan
advances one character, on success it resumes after the closing
backtick. -/
def backtickFixAux : Nat → Str → Str
  | 0, s => s
  | _, [] => []
  | fuel + 1, c :: cs =>
    if c = btC then
      match findSub [btC] cs with
      | none => c :: backtickFixAux fuel cs
      | some j =>
        let tok := cs.take j
        let after := cs.drop (j + 1)
        if lookaheadOk after then '"' :: (tok ++ '"' :: backtickFixAux fuel after)
        else c :: backtickFixAux fuel cs
    else c :: backtickFixAux fuel cs

/-- Step-4 repair of the resolver: rewrite backtick tokens to quoted
tokens.  Every scan step consumes at least one character, so fuel equal
to the length is enough. -/
def backtickFix (s : Str) : Str := backtickFixAux s.length s

/-- Index of the last occurrence of a character. -/
def lastIdxOf (c : Char) (s : Str) : Option Nat :=
  match findSub [c] s.reverse with
  | some k => some (s.length - 1 - k)
  | none => none

/-- Model of the brace-extraction regex search (opening brace, greedy
anything, closing brace, under DOTALL): the span from the first opening
brace to the last closing brace, when the latter lies strictly after the
former. -/
def braceSpan (s : Str) : Option Str :=
  match findSub [obrC] s with
  | none => none
  | some i =>
    match lastIdxOf cbrC s with
    | some j => if i < j then some ((s.drop i).take (j - i + 1)) else none
    | none => none

/-- Key of a heuristic field match: quotation mark, a nonempty maximal
word-character run, quotation mark, optional whitespace, colon.  Returns
the key and the input remaining after the colon. -/
def tryKey (cs : Str) : Option (Str × Str) :=
  match cs with
  | '"' :: r1 =>
    let key := r1.takeWhile isWordC
    if key.isEmpty then none
    else
      match r1.drop key.length with
      | '"' :: r3 =>
        match r3.dropWhile isPyWs with
        | ':' :: r5 => some (key, r5)
        | _ => none
      | _ => none
  | _ => none

/-- One match of the heuristic boolean pattern (case-insensitive true or
false after a quoted word key and a colon), with the remaining input. -/
def tryBool (cs : Str) : Option ((Str × Bool) × Str) :=
  match tryKey cs with
  | none => none
  | some (key, r5) =>
    let r6 := r5.dropWhile isPyWs
    if pyLower (r6.take 4) = strL "true" then some ((key, true), r6.drop 4)
    else if pyLower (r6.take 5) = strL "false" then some ((key, false), r6.drop 5)
    else none

/-- One match of the heuristic string pattern (a quoted run of
non-quote characters after a quoted word key and a colon), with the
remaining input. -/
def tryStr (cs : Str) : Option ((Str × Str) × Str) :=
  match tryKey cs with
  | none => none
  | some (key, r5) =>
    match r5.dropWhile isPyWs with
    | '"' :: r7 =>
      let v := r7.takeWhile (· ≠ '"')
      match r7.drop v.length with
      | '"' :: r9 => some ((key, v), r9)
      | _ => none
    | _ => none

/-- One match of the heuristic number pattern (optional minus, digits,
optional fraction, after a quoted word key and a colon), with the
remaining input.  A match with a fraction is a Python float; floating
point is outside this embedding, so such a match is reported with value
none and its entry is skipped when the result mapping is assembled (the
verified claims do not involve float-valued fields). -/
def tryNum (cs : Str) : Option ((Str × Option Int) × Str) :=
  match tryKey cs with
  | none => none
  | some (key, r5) =>
    let r6 := r5.dropWhile isPyWs
    let sr := match r6 with
      | '-' :: r => (true, r)
      | _ => (false, r6)
    let ds := sr.2.takeWhile isDigitC
    if ds.isEmpty then none
    else
      let r8 := sr.2.drop ds.length
      let nv : Nat := ds.foldl (fun a c => a * 10 + digitVal c) 0
      let iv : Int := if sr.1 then -(nv : Int) else (nv : Int)
      match r8 with
      | '.' :: r9 =>
        let fs := r9.takeWhile isDigitC
        if fs.isEmpty then some ((key, some iv), r8)
        else some ((key, none), r9.drop fs.length)
      | _ => some ((key, some iv), r8)

/-- Finditer-style scan: try a matcher at every position, collecting
non-overlapping matches left to right, resuming after each match.  The
fuel is at least the input length at every call site, which is enough
because every step consumes at least one character. -/
def scanAll {α : Type} (m : Str → Option (α × Str)) : Nat → Str → List α
  | 0, _ => []
  | fuel + 1, cs =>
    match cs with
    | [] => []
    | c :: rest =>
      match m (c :: rest) with
      | some (a, rest2) => a :: scanAll m fuel rest2
      | none => scanAll m fuel rest

/-- Step-6 heuristic field extractor of the resolver: three independent
finditer passes (booleans, then strings, then numbers) assembled into a
dict by assignment, so later passes overwrite earlier values of the same
key while keeping its position. -/
def heuristicFields (s : Str) : JsonVal :=
  let bools := scanAll tryBool s.length s
  let strs := scanAll tryStr s.length s
  let nums := scanAll tryNum s.length s
  let d1 := bools.foldl (fun d kv => objInsert d kv.1 (.jbool kv.2)) []
  let d2 := strs.foldl (fun d kv => objInsert d kv.1 (.jstr kv.2)) d1
  let d3 := nums.foldl
    (fun d kv =>
      match kv.2 with
      | some n => objInsert d kv.1 (.jint n)
      | none => d) d2
  .jobj d3

/-- Python values that can reach the resolver: text, None, booleans,
integers, lists and string-keyed dicts (every value the surrounding code
can pass is JSON-serializable, so the str fallback branch of the source
is unreachable in the model). -/
inductive PyVal : Type where
  | pstr : Str → PyVal
  | pnone : PyVal
  | pbool : Bool → PyVal
  | pint : Int → PyVal
  | plist : List PyVal → PyVal
  | pdict : List (Str × PyVal) → PyVal

mutual

/-- JSON view of a Python value, used when the resolver stringifies
non-text input with json.dumps. -/
def pyToJson : PyVal → JsonVal
  | .pstr s => .jstr s
  | .pnone => .jnull
  | .pbool b => .jbool b
  | .pint n => .jint n
  | .plist l => .jarr (pyToJsonList l)
  | .pdict l => .jobj (pyToJsonMembers l)

/-- JSON view of a list of Python values. -/
def pyToJsonList : List PyVal → List JsonVal
  | [] => []
  | v :: vs => pyToJson v :: pyToJsonList vs

/-- JSON view of a Python dict body. -/
def pyToJsonMembers : List (Str × PyVal) → List (Str × JsonVal)
  | [] => []
  | (k, v) :: ms => (k, pyToJson v) :: pyToJsonMembers ms

end

/-- Python dict.get on the association-list model (dict keys are unique
in Python, so first match is the match). -/
def pyGet (l : List (Str × PyVal)) (k : Str) : Option PyVal :=
  (l.find? (fun kv => kv.1 = k)).map (fun kv => kv.2)

/-- Step-0 input normalization of the resolver: keep text, dig a string
out of a chat-shaped dict under the keys content, message, text, and
stringify anything else with json.dumps. -/
def coerceText (x : PyVal) : Str :=
  match x with
  | .pstr s => s
  | .pdict l =>
    match pyGet l (strL "content") with
    | some (.pstr s) => s
    | _ =>
      match pyGet l (strL "message") with
      | some (.pstr s) => s
      | _ =>
        match pyGet l (strL "text") with
        | some (.pstr s) => s
        | _ => jsonDumps (pyToJson (.pdict l))
  | other => jsonDumps (pyToJson other)

/-- Steps 1 to 6 of the resolver cascade on already-textual input. -/
def resolveSteps (t : Str) : JsonVal :=
  let t1 := match markerStrip fenceMark t with
    | some s => s
    | none => t
  let t2 := match markerStrip tqMark t1 with
    | some s => s
    | none => t1
  match jsonLoads t2 with
  | some j => j
  | none =>
    match jsonLoads (backtickFix t2) with
    | some j => j
    | none =>
      match braceSpan t2 with
      | some b =>
        match jsonLoads b with
        | some j => j
        | none => heuristicFields t2
      | none => heuristicFields t2

/-- Model of the Structured Output Resolver, the function named with a
leading underscore and the words parse json output in
Cerebrum/cerebrum/utils/utils.py: None maps to the empty dict, other
input is normalized to text and run through the cascade.  The function
is total, which is the model of the never-raises contract. -/
def parseJsonOutput (x : PyVal) : JsonVal :=
  match x with
  | .pnone => .jobj []
  | _ => resolveSteps (coerceText x)

/-- Unanchored regex search of a literal followed by a validator: try
every position left to right, matching the literal there and then the
rest of the pattern; on failure of either, advance one position. -/
def reFind {α : Type} (lit : Str) (tok : Str → Option α) : Str → Option α
  | [] => none
  | c :: cs =>
    if lit.isPrefixOf (c :: cs) then
      match tok ((c :: cs).drop lit.length) with
      | some a => some a
      | none => reFind lit tok cs
    else reFind lit tok cs

/-- Token after the Status label: optional whitespace then a nonempty
word-character run. -/
def statusTok (r : Str) : Option Str :=
  let w := (r.dropWhile isPyWs).takeWhile isWordC
  if w.isEmpty then none else some w

/-- Status extraction of the tool-output summarizer: search the literal
Status label (case-sensitive, as in the source regex), capture the word
token, lower-case it; default unknown. -/
def statusOf (msg : Str) : Str :=
  match reFind (strL "Status:") statusTok msg with
  | some w => pyLower w
  | none => strL "unknown"

/-- Token after the Exit code label: optional whitespace then a nonempty
digit run, folded to a number.  The source pattern has no sign, so a
negative exit code is not captured. -/
def exitTok (r : Str) : Option Nat :=
  let ds := (r.dropWhile isPyWs).takeWhile isDigitC
  if ds.isEmpty then none
  else some (ds.foldl (fun a c => a * 10 + digitVal c) 0)

/-- Exit-code extraction of the tool-output summarizer. -/
def exitOf (msg : Str) : Option Nat :=
  reFind (strL "Exit code:") exitTok msg

/-- Stderr-head extraction of the tool-output summarizer: everything
after the first STDERR marker line, stripped, first five lines kept. -/
def stderrOf (msg : Str) : Str :=
  match reFind (strL "[STDERR]\n") (fun r => some r) msg with
  | some tail => joinNl ((splitLines (pyStrip tail)).take 5)
  | none => []

/-- Canonical result record extracted from a sandbox report. -/
structure RunSummary where
  status : Str
  exitCode : Option Nat
  errHead : Str
deriving Repr, DecidableEq

/-- Model of the static method summarize tool output of the tool-using
ReAct agent: three independent regex searches over the report text. -/
def summarizeToolOutput (msg : Str) : RunSummary :=
  ⟨statusOf msg, exitOf msg, stderrOf msg⟩

/-- Python str.replace for a nonempty pattern: leftmost non-overlapping
occurrences are replaced, scanning left to right. -/
def pyReplaceAux (p : Char) (ps : Str) (rep : Str) : Nat → Str → Str
  | 0, s => s
  | _, [] => []
  | fuel + 1, c :: cs =>
    if (p :: ps).isPrefixOf (c :: cs) then
      rep ++ pyReplaceAux p ps rep fuel (cs.drop ps.length)
    else c :: pyReplaceAux p ps rep fuel cs

/-- Name-level encoding of slash to double underscore from
aios/llm_core/utils.py: when the name contains a slash, split on slashes
and join with double underscores (equivalently, replace every slash). -/
def encodeToolName (name : Str) : Str :=
  if '/' ∈ name then pyReplaceAux '/' [] (strL "__") name.length name else name

/-- Name-level decoding of double underscore back to slash from
aios/llm_core/utils.py: str.replace of every non-overlapping double
underscore by a slash. -/
def decodeToolName (name : Str) : Str :=
  pyReplaceAux '_' ['_'] ['/'] name.length name

/-- Normalization of line endings at the top of both step parsers:
carriage return plus newline, then lone carriage return, become
newline. -/
def normNl : Str → Str
  | [] => []
  | '\r' :: '\n' :: cs => '\n' :: normNl cs
  | '\r' :: cs => '\n' :: normNl cs
  | c :: cs => c :: normNl cs

/-- Anchor update for multiline caret-anchored patterns with leading
whitespace: the anchor is the earliest line start from which the text up
to the current position is all whitespace, if any. -/
def anchorStep (anchor : Option Nat) (c : Char) (i : Nat) : Option Nat :=
  if c = '\n' then some (anchor.getD (i + 1))
  else
    match anchor with
    | some a => if isPyWs c then some a else none
    | none => none

/-- Scan for a multiline caret-anchored, case-insensitive label pattern
of the shape caret, whitespace, label, remainder: at each position where
the label matches and only whitespace separates it from a line start,
run the extractor on the match start, the label position and the text
after the label; continue on extractor failure, exactly as the regex
engine resumes the search. -/
def anchorScanAux {α : Type} (label : Str) (ext : Nat → Nat → Str → Option α) :
    Str → Nat → Option Nat → Option α
  | [], _, _ => none
  | c :: cs, i, anchor =>
    match anchor with
    | some a =>
      if pyLower ((c :: cs).take label.length) = label then
        match ext a i ((c :: cs).drop label.length) with
        | some r => some r
        | none => anchorScanAux label ext cs (i + 1) (anchorStep anchor c i)
      else anchorScanAux label ext cs (i + 1) (anchorStep anchor c i)
    | none => anchorScanAux label ext cs (i + 1) (anchorStep anchor c i)

/-- Entry point of the anchored label scan, starting with anchor zero. -/
def anchorScan {α : Type} (label : Str) (ext : Nat → Nat → Str → Option α)
    (t : Str) : Option α :=
  anchorScanAux label ext t 0 (some 0)

/-- Capture of a to-end-of-line group after a label: skip whitespace
(which may cross line breaks, as the regex whitespace class does), take
the rest of that line, strip it. -/
def extLine (_ _ : Nat) (r : Str) : Option Str :=
  some (pyStrip ((r.dropWhile isPyWs).takeWhile (· ≠ '\n')))

/-- Locate the end of a label-only line match of the shape caret,
whitespace, label, whitespace, dollar: the trailing whitespace run must
reach the end of input (match ends there) or contain a newline (match
ends at the last newline of the run); otherwise the match fails. -/
def candEndExt (base : Nat) (r : Str) : Option Nat :=
  let w := r.takeWhile isPyWs
  if w.length = r.length then some (base + r.length)
  else
    match lastIdxOf '\n' w with
    | some k => some (base + k)
    | none => none

/-- Is the rest of the current line all whitespace (the dollar of a
token-terminated pattern can then match). -/
def restLineWs (r : Str) : Bool := (r.takeWhile (· ≠ '\n')).all isPyWs

/-- Case-insensitive two-way token after a label, each alternative
required to end its line: yields true for the first token, false for the
second. -/
def extBoolTok (tTok fTok : Str) (r : Str) : Option Bool :=
  let r2 := r.dropWhile isPyWs
  if pyLower (r2.take tTok.length) = tTok ∧ restLineWs (r2.drop tTok.length) then
    some true
  else if pyLower (r2.take fTok.length) = fTok ∧ restLineWs (r2.drop fTok.length) then
    some false
  else none

/-- Parsed fields of one plain-text ReAct step of
Cerebrum/benchmarks/agents/react.py. -/
structure PlainStep where
  thought : Str
  candidate : Str
  finish : Bool
deriving Repr, DecidableEq

/-- Model of the static method parse plain react of
Cerebrum/benchmarks/agents/react.py: thought line, candidate block from
the candidate-only line to the finish line (or the end), finish flag
defaulting to false. -/
def parsePlainReact (text : Str) : PlainStep :=
  let t := normNl text
  let thought := (anchorScan (strL "thought:") extLine t).getD []
  let candStart := anchorScan (strL "candidate:")
    (fun _ p r => candEndExt (p + 10) r) t
  let finishInfo := anchorScan (strL "finish:")
    (fun a _ r => (extBoolTok (strL "true") (strL "false") r).map (fun b => (a, b))) t
  let candidate :=
    match candStart with
    | none => []
    | some st =>
      match finishInfo with
      | some (fs, _) => stripNl ((t.drop st).take (fs - st))
      | none => stripNl (t.drop st)
  let finish :=
    match finishInfo with
    | some (_, b) => b
    | none => false
  ⟨thought, candidate, finish⟩

/-- Case-insensitive non-greedy span between an opening and a closing
tag: text between the first opening-tag occurrence and the first
closing-tag occurrence after it. -/
def tagSpan (openTag closeTag : Str) (t : Str) : Option Str :=
  let lt := pyLower t
  match findSub openTag lt with
  | none => none
  | some i =>
    let base := i + openTag.length
    match findSub closeTag (lt.drop base) with
    | none => none
    | some j => some ((t.drop base).take j)

/-- Parsed fields of one tool-using ReAct step of
Cerebrum/benchmarks/agents/react_code/agent.py. -/
structure ReactStep where
  observation : Str
  thought : Str
  candidate : Str
  body : Str
  tests : Str
  finish : Bool
deriving Repr, DecidableEq

/-- Model of the static method parse react step of
Cerebrum/benchmarks/agents/react_code/agent.py: observation and thought
lines, answer body between final-answer tags (newline-stripped, with the
candidate rebuilt around it), tests between tests tags, and a yes-or-no
finish flag defaulting to false. -/
def parseReactStep (text : Str) : ReactStep :=
  let t := normNl text
  let observation := (anchorScan (strL "observation:") extLine t).getD []
  let thought := (anchorScan (strL "thought:") extLine t).getD []
  let bodyOpt := tagSpan (strL "<final_answer>") (strL "</final_answer>") t
  let body :=
    match bodyOpt with
    | some b => stripNl b
    | none => []
  let candidate :=
    match bodyOpt with
    | some b => strL "<FINAL_ANSWER>\n" ++ (stripNl b ++ strL "\n</FINAL_ANSWER>")
    | none => []
  let tests :=
    match tagSpan (strL "<tests>") (strL "</tests>") t with
    | some b => stripNl b
    | none => []
  let finish :=
    (anchorScan (strL "finish:") (fun _ _ r => extBoolTok (strL "yes") (strL "no") r) t).getD false
  ⟨observation, thought, candidate, body, tests, finish⟩

/-- Model of the static method extract def header of the tool-using
agent: the first line whose stripped form starts with the def keyword
and a space, returned stripped; empty when there is none. -/
def extractDefHeader (taskInput : Str) : Str :=
  match (splitLines taskInput).find? (fun l => (strL "def ").isPrefixOf (pyStrip l)) with
  | some l => pyStrip l
  | none => []

/-- Python exceptions that the modelled code can raise. -/
inductive PyErr : Type where
  | valueError : PyErr
  | keyError : Str → PyErr
  | typeError : PyErr
  | jsonDecodeError : PyErr
  | attributeError : PyErr
deriving Repr, DecidableEq

/-- Python subscription of a parsed JSON value by a string key: a
missing key raises KeyError, a non-dict raises TypeError. -/
def pyIndex (j : JsonVal) (k : Str) : Except PyErr JsonVal :=
  match j with
  | .jobj ms =>
    match ms.find? (fun kv => kv.1 = k) with
    | some kv => .ok kv.2
    | none => .error (.keyError k)
  | _ => .error .typeError

/-- History record appended by the tool-using ReAct loop of
Cerebrum/benchmarks/agents/react_code/agent.py (round, observation,
thought, finish flag, tool status, exit code, error head). -/
structure ToolRec where
  round : Nat
  observation : Str
  thought : Str
  finish : Bool
  status : Str
  exitCode : Option Nat
  errHead : Str
deriving Repr, DecidableEq

/-- Loop body of the tool-using ReAct agent.  The generation backend and
the sandbox tool are black-box oracles indexed by round number (their
real inputs, the rendered prompt and the assembled program, do not feed
back into the verified control behaviour).  Besides the returned final
candidate and the history records of the source, the model also returns
the trace of the live candidate value observed after every executed
round, so that invariants about the loop state can be stated. -/
def runToolAux (oracle tool : Nat → Str) :
    Nat → Nat → Str → List ToolRec → List Str → Str × List ToolRec × List Str
  | 0, _, cand, hist, cands => (cand, hist.reverse, cands.reverse)
  | fuel + 1, i, _, hist, cands =>
    let p := parseReactStep (oracle i)
    let s := summarizeToolOutput (tool i)
    let r0 : ToolRec := ⟨i, p.observation, p.thought, p.finish, s.status, s.exitCode, s.errHead⟩
    let cand' := p.candidate
    if s.status = strL "success" then
      (cand', (r0 :: hist).reverse, (cand' :: cands).reverse)
    else runToolAux oracle tool fuel (i + 1) cand' (r0 :: hist) (cand' :: cands)

/-- Model of the run method of the tool-using ReAct agent: extract the
def header from the task input, raising ValueError when there is none
before any backend or tool interaction, then run up to max steps rounds,
stopping early exactly when the summarized tool status is success. -/
def runToolAgent (oracle tool : Nat → Str) (maxSteps : Nat) (task : Str) :
    Except PyErr (Str × List ToolRec × List Str) :=
  if (extractDefHeader task).isEmpty then .error .valueError
  else .ok (runToolAux oracle tool maxSteps 0 [] [] [])

/-- History record appended by the tool-free plain-text ReAct loop of
Cerebrum/benchmarks/agents/react.py (round, thought, candidate length,
finish flag). -/
structure PlainRec where
  round : Nat
  thought : Str
  candidateLen : Nat
  finish : Bool
deriving Repr, DecidableEq

/-- Loop body of the tool-free plain-text ReAct agent, with the backend
as a round-indexed oracle and the per-round live candidate trace
exposed in addition to the source return value. -/
def runPlainAux (oracle : Nat → Str) :
    Nat → Nat → Str → List PlainRec → List Str → Str × List PlainRec × List Str
  | 0, _, cand, hist, cands => (cand, hist.reverse, cands.reverse)
  | fuel + 1, i, _, hist, cands =>
    let p := parsePlainReact (oracle i)
    let r0 : PlainRec := ⟨i, p.thought, p.candidate.length, p.finish⟩
    let cand' := p.candidate
    if p.finish ∧ ¬cand'.isEmpty then
      (cand', (r0 :: hist).reverse, (cand' :: cands).reverse)
    else runPlainAux oracle fuel (i + 1) cand' (r0 :: hist) (cand' :: cands)

/-- Model of the run method of the tool-free plain-text ReAct agent:
up to max steps rounds, stopping early exactly when the parsed finish
flag is true and the candidate is nonempty; the clean exit returns the
last candidate. -/
def runPlainAgent (oracle : Nat → Str) (maxSteps : Nat) :
    Str × List PlainRec × List Str :=
  runPlainAux oracle maxSteps 0 [] [] []

/-- History record of the structured-schema ReAct loop of
Cerebrum/benchmarks/agents/react_code.py. -/
structure JsonRec where
  round : Nat
  observation : JsonVal
  thought : JsonVal
  calledWorker : JsonVal
  calledWorkerParams : JsonVal
  info : Option Str
deriving Repr, DecidableEq

/-- Loop body of the structured-schema ReAct agent: parse the oracle
output with the resolver and subscript the four required fields, so a
missing field raises KeyError out of the loop exactly as the Python
subscription does; a null worker name triggers the post-loop extraction
call (the extractor oracle) and stops; otherwise the tool oracle is
consulted and the loop continues. -/
def runJsonAux (oracle tool : Nat → Str) (extractor : Str) :
    Nat → Nat → List JsonRec → Except PyErr (Str × List JsonRec)
  | 0, _, hist => .ok ([], hist.reverse)
  | fuel + 1, i, hist => do
    let step := parseJsonOutput (.pstr (oracle i))
    let obs ← pyIndex step (strL "observation")
    let reasoning ← pyIndex step (strL "reasoning")
    let wname ← pyIndex step (strL "worker_name")
    let wparams ← pyIndex step (strL "worker_params")
    if wname = .jnull then
      let r0 : JsonRec := ⟨i, obs, reasoning, .jnull, .jnull, none⟩
      .ok (extractor, ((r0 :: hist).reverse))
    else
      let r0 : JsonRec := ⟨i, obs, reasoning, wname, wparams, some (tool i)⟩
      runJsonAux oracle tool extractor fuel (i + 1) (r0 :: hist)

/-- Model of the run method of the structured-schema ReAct agent of
Cerebrum/benchmarks/agents/react_code.py; round exhaustion returns the
initial empty answer. -/
def runJsonAgent (oracle tool : Nat → Str) (extractor : Str) (maxSteps : Nat) :
    Except PyErr (Str × List JsonRec) :=
  runJsonAux oracle tool extractor maxSteps 0 []

/-- Arguments attribute of a transport tool call: either a raw string
(possibly JSON-encoded) or an already-structured value. -/
inductive LArgs : Type where
  | rawArgs : Str → LArgs
  | jsonArgs : JsonVal → LArgs
deriving Repr, DecidableEq

/-- Function payload of a transport tool-call object; getattr with a
None default is modelled by the option fields. -/
structure LFunc where
  name : Option Str
  arguments : Option LArgs
deriving Repr, DecidableEq

/-- Transport tool-call object of the LiteLLM and OpenAI shapes. -/
structure LToolCall where
  function : Option LFunc
  name : Option Str
  arguments : Option LArgs
  id : Option Str
deriving Repr, DecidableEq

/-- Message of a model response: optional tool-call list and optional
text content. -/
structure LMessage where
  toolCalls : Option (List LToolCall)
  content : Option Str
deriving Repr, DecidableEq

/-- Response shapes accepted by the tool-call decoder: a model response
carrying a message, a raw list of tool-call objects, or anything else
(which carries neither tool calls nor content). -/
inductive LResponse : Type where
  | modelResp : LMessage → LResponse
  | rawList : List LToolCall → LResponse
  | other : LResponse
deriving Repr, DecidableEq

/-- Parameters of a decoded call: a JSON value when the transport
arguments were structured or parsed, or the raw string kept verbatim
when they were a string that is not valid JSON. -/
inductive PVal : Type where
  | rawP : Str → PVal
  | jsonP : JsonVal → PVal
deriving Repr, DecidableEq

/-- Decoded tool call: name (a transport string name is wrapped as a
JSON string; the content fallback can produce any JSON value as a name),
parameters, and the transport id, with none standing for a freshly
generated one. -/
structure DecodedCall where
  name : JsonVal
  parameters : PVal
  id : Option Str
deriving Repr, DecidableEq

/-- Decoding of one attribute-shaped tool call: prefer the function
payload, fall back to direct attributes; string arguments are parsed as
JSON and kept as a raw string when that fails; the call is dropped
(none) when either the name or the arguments are missing. -/
def decodeOneAttr (tc : LToolCall) : Option DecodedCall :=
  let nm := match tc.function with
    | some f => f.name
    | none => tc.name
  let ar := match tc.function with
    | some f => f.arguments
    | none => tc.arguments
  match nm, ar with
  | some n, some a =>
    let p := match a with
      | .rawArgs s =>
        match jsonLoads s with
        | some j => PVal.jsonP j
        | none => PVal.rawP s
      | .jsonArgs j => PVal.jsonP j
    some ⟨.jstr n, p, tc.id⟩
  | _, _ => none

/-- Lookup of a key in a JSON object body. -/
def keyLookup (ms : List (Str × JsonVal)) (k : Str) : Option JsonVal :=
  (ms.find? (fun kv => kv.1 = k)).map (fun kv => kv.2)

/-- Decoding of one item of the content-embedded fallback: on a dict,
the name is looked up under the aliases name, function name, tool name
(key presence first, then a None check) and the parameters under
arguments then parameters; a missing or null pair drops the item.
On a non-dict item the Python membership test or subscription raises,
which aborts the collection loop; the error is reproduced exactly where
Python raises (a list raises only when subscripted after a successful
membership test, a string when it contains the probed key as a
substring, the other scalars as soon as the membership test runs). -/
def contentItemDecode (tc : JsonVal) : Except PyErr (Option DecodedCall) :=
  match tc with
  | .jobj ms =>
    let nm := match keyLookup ms (strL "name") with
      | some v => some v
      | none =>
        match keyLookup ms (strL "function_name") with
        | some v => some v
        | none => keyLookup ms (strL "tool_name")
    .ok (match nm with
      | some v =>
        if v = .jnull then none
        else
          let pm := match keyLookup ms (strL "arguments") with
            | some p => some p
            | none => keyLookup ms (strL "parameters")
          match pm with
          | some p => if p = .jnull then none else some ⟨v, .jsonP p, none⟩
          | none => none
      | none => none)
  | .jarr l =>
    if (JsonVal.jstr (strL "name")) ∈ l then .error .typeError
    else if (JsonVal.jstr (strL "function_name")) ∈ l then .error .typeError
    else if (JsonVal.jstr (strL "tool_name")) ∈ l then .error .typeError
    else .ok none
  | .jstr s => if occursIn (strL "name") s then .error .typeError else .ok none
  | _ => .error .typeError

/-- Collection loop of the content fallback: an exception aborts the
loop but the calls decoded before it are kept, because the enclosing
try wraps the whole loop and the function still returns the list. -/
def decodeContentItems : List JsonVal → List DecodedCall
  | [] => []
  | tc :: rest =>
    match contentItemDecode tc with
    | .ok (some d) => d :: decodeContentItems rest
    | .ok none => decodeContentItems rest
    | .error _ => []

/-- Content fallback of the tool-call decoder: parse the message text as
JSON; a dict becomes a one-item list, a list is traversed, anything else
(or unparsable text) is treated as no tools. -/
def contentBranch : Option Str → List DecodedCall
  | none => []
  | some s =>
    match jsonLoads s with
    | some (.jarr l) => decodeContentItems l
    | some (.jobj ms) => decodeContentItems [.jobj ms]
    | some _ => []
    | none => []

/-- Model of decode litellm tool calls of aios/llm_core/utils.py: a
model response yields its message fields; a nonempty raw list whose
first element carries a function attribute is used directly; a truthy
tool-call list is decoded attribute-wise with unresolvable calls
silently dropped; otherwise the content fallback runs.  The function is
total: no input makes it raise. -/
def decodeLitellm (resp : LResponse) : List DecodedCall :=
  let tc : Option (List LToolCall) := match resp with
    | .modelResp m => m.toolCalls
    | .rawList l =>
      if (!l.isEmpty) && (match l.head? with
        | some t => t.function.isSome
        | none => false) then some l else none
    | .other => none
  let content : Option Str := match resp with
    | .modelResp m => m.content
    | _ => none
  match tc with
  | some l => if l.isEmpty then contentBranch content else l.filterMap decodeOneAttr
  | none => contentBranch content

/-- One item of parse tool calls after the id pass: name lookup (KeyError
when missing), double-underscore decoding of the name (AttributeError
when the name is not a string), parameters lookup (KeyError when
missing), and a JSON parse of string parameters (JSONDecodeError when
that fails). -/
def parsedCallOfObj (ms : List (Str × JsonVal)) : Except PyErr (Str × JsonVal) :=
  match keyLookup ms (strL "name") with
  | none => .error (.keyError (strL "name"))
  | some (.jstr n) =>
    let n' := pyReplaceAux '_' ['_'] ['/'] n.length n
    match keyLookup ms (strL "parameters") with
    | none => .error (.keyError (strL "parameters"))
    | some (.jstr ps) =>
      match jsonLoads ps with
      | some j => .ok (n', j)
      | none => .error .jsonDecodeError
    | some p => .ok (n', p)
  | some _ => .error .attributeError

/-- First pass of parse tool calls: every item must be a dict for the id
assignment; the first non-dict raises TypeError. -/
def allObjs : List JsonVal → Except PyErr (List (List (Str × JsonVal)))
  | [] => .ok []
  | .jobj ms :: rest => (allObjs rest).map (fun t => ms :: t)
  | _ :: _ => .error .typeError

/-- Second pass of parse tool calls over the collected dicts. -/
def parsedCallsOf : List (List (Str × JsonVal)) → Except PyErr (List (Str × JsonVal))
  | [] => .ok []
  | ms :: rest => do
    let c ← parsedCallOfObj ms
    let t ← parsedCallsOf rest
    .ok (c :: t)

/-- Model of parse tool calls of aios/llm_core/utils.py: json.loads of
the message (raising on non-JSON), a dict wrapped into a one-item list,
then the id pass and the name-and-parameters pass, each able to raise.
A parsed empty string makes both loops vacuous and Python returns the
empty string itself; observationally an empty collection, modelled as
the empty list.  Other scalars raise TypeError when iterated. -/
def parseToolCalls (message : Str) : Except PyErr (List (Str × JsonVal)) :=
  match jsonLoads message with
  | none => .error .jsonDecodeError
  | some (.jobj ms) => (parsedCallOfObj ms).map (fun c => [c])
  | some (.jarr l) => do
    let objs ← allObjs l
    parsedCallsOf objs
  | some (.jstr []) => .ok []
  | some _ => .error .typeError

theorem findSubAux_eq (pat : Str) :
    ∀ (s : Str) (i : Nat), findSubAux pat s i = (findSub pat s).map (· + i) := by
  intro s
  induction s with
  | nil =>
    intro i
    simp only [findSub, findSubAux]
    by_cases h : pat.isEmpty <;> simp [h]
  | cons c cs ih =>
    intro i
    simp only [findSub, findSubAux]
    by_cases h : pat.isPrefixOf (c :: cs)
    · simp [h]
    · rw [if_neg h, if_neg h, ih (i + 1), ih 1, Option.map_map]
      congr 1
      funext x
      simp only [Function.comp]
      omega

theorem findSub_cons (pat : Str) (c : Char) (cs : Str) :
    findSub pat (c :: cs) =
      if pat.isPrefixOf (c :: cs) then some 0 else (findSub pat cs).map (· + 1) := by
  simp only [findSub, findSubAux]
  by_cases h : pat.isPrefixOf (c :: cs)
  · simp [h]
  · simp [h, findSubAux_eq]

theorem occursIn_cons (pat : Str) (c : Char) (cs : Str) :
    occursIn pat (c :: cs) = (pat.isPrefixOf (c :: cs) || occursIn pat cs) := by
  simp only [occursIn, findSub_cons]
  by_cases h : pat.isPrefixOf (c :: cs) <;> simp [h]

theorem occursIn_nil (pat : Str) : occursIn pat [] = pat.isEmpty := by
  simp only [occursIn, findSub, findSubAux]
  by_cases h : pat.isEmpty <;> simp [h]

theorem findSub_some_prefixAt (pat s : Str) (j : Nat) (h : findSub pat s = some j) :
    pat.isPrefixOf (s.drop j) := by
  induction s generalizing j with
  | nil =>
    simp only [findSub, findSubAux] at h
    by_cases hp : pat.isEmpty
    · have hj : j = 0 := by
        simp only [hp, if_true, Option.some.injEq] at h
        omega
      subst hj
      have hp2 : pat = [] := by
        cases pat with
        | nil => rfl
        | cons a l => simp [List.isEmpty] at hp
      simp [hp2, List.isPrefixOf]
    · simp [hp] at h
  | cons c cs ih =>
    rw [findSub_cons] at h
    by_cases hp : pat.isPrefixOf (c :: cs)
    · simp only [hp, if_true, Option.some.injEq] at h
      subst h
      simpa using hp
    · rw [if_neg hp] at h
      cases hf : findSub pat cs with
      | none => simp [hf] at h
      | some k =>
        simp only [hf, Option.map_some', Option.some.injEq] at h
        subst h
        simpa using ih k hf

theorem findSub_eq_none_of (pat s : Str)
    (h : ∀ k, ¬ pat.isPrefixOf (s.drop k) = true) : findSub pat s = none := by
  induction s with
  | nil =>
    simp only [findSub, findSubAux]
    have h0 := h 0
    simp only [List.drop_nil] at h0
    by_cases hp : pat.isEmpty
    · exfalso
      apply h0
      cases pat with
      | nil => simp [List.isPrefixOf]
      | cons a l => simp [List.isEmpty] at hp
    · simp [hp]
  | cons c cs ih =>
    rw [findSub_cons]
    have h0 := h 0
    simp only [List.drop_zero] at h0
    simp only [h0, if_false]
    rw [ih]
    · rfl
    · intro k
      have := h (k + 1)
      simpa using this

theorem findSub_eq_some_of (pat s : Str) (j : Nat)
    (hj : pat.isPrefixOf (s.drop j) = true)
    (hmin : ∀ k, k < j → ¬ pat.isPrefixOf (s.drop k) = true) :
    findSub pat s = some j := by
  induction s generalizing j with
  | nil =>
    cases j with
    | zero =>
      simp only [List.drop_nil] at hj
      cases pat with
      | nil => simp [findSub, findSubAux, List.isEmpty]
      | cons a l => simp [List.isPrefixOf] at hj
    | succ n =>
      exfalso
      apply hmin 0 (by omega)
      simp only [List.drop_nil]
      simp only [List.drop_succ_cons, List.drop_nil] at hj
      exact hj
  | cons c cs ih =>
    rw [findSub_cons]
    cases j with
    | zero =>
      simp only [List.drop_zero] at hj
      simp [hj]
    | succ n =>
      have h0 := hmin 0 (by omega)
      simp only [List.drop_zero] at h0
      simp only [h0, if_false]
      rw [ih n]
      · rfl
      · simpa using hj
      · intro k hk
        have := hmin (k + 1) (by omega)
        simpa using this

theorem prefixOf_head {p : Char} {ps l : Str} (h : (p :: ps).isPrefixOf l = true) :
    ∃ t, l = p :: t ∧ ps.isPrefixOf t = true := by
  cases l with
  | nil => simp [List.isPrefixOf] at h
  | cons c t =>
    simp only [List.isPrefixOf, Bool.and_eq_true, beq_iff_eq] at h
    exact ⟨t, by rw [h.1], h.2⟩

theorem prefixOf_append_sep {pat : Str} {c : Char} (hc : c ∉ pat) :
    ∀ (x y : Str), pat.isPrefixOf (x ++ c :: y) = pat.isPrefixOf x := by
  induction pat with
  | nil => intro x y; simp [List.isPrefixOf]
  | cons p ps ih =>
    intro x y
    cases x with
    | nil =>
      simp only [List.nil_append]
      have hpc : p ≠ c := by
        intro hh
        exact hc (by simp [hh])
      simp only [List.isPrefixOf]
      have : (p == c) = false := by simp [hpc]
      simp [this]
    | cons a x' =>
      simp only [List.cons_append, List.isPrefixOf, List.append_eq]
      rw [ih (by intro hm; exact hc (by simp [hm])) x' y]

theorem charOfNat_toNat {n : Nat} (h : n < 55296) : (Char.ofNat n).toNat = n := by
  unfold Char.ofNat
  rw [dif_pos (Or.inl h)]
  rfl

theorem char_le_iff (c d : Char) : (c ≤ d) ↔ (c.toNat ≤ d.toNat) := by
  rw [Char.le_def, UInt32.le_def, BitVec.le_def]
  exact Iff.rfl

theorem char_eq_iff (c d : Char) : (c = d) ↔ (c.toNat = d.toNat) := by
  constructor
  · intro h
    rw [h]
  · intro h
    exact Char.eq_of_val_eq (by
      apply UInt32.eq_of_toBitVec_eq
      apply BitVec.eq_of_toNat_eq
      exact h)

theorem isPyWs_cases {c : Char} (h : isPyWs c = true) :
    c = ' ' ∨ c = '\t' ∨ c = '\n' ∨ c = '\r' ∨ c = Char.ofNat 11 ∨ c = Char.ofNat 12 := by
  unfold isPyWs at h
  simp only [Bool.or_eq_true, decide_eq_true_eq] at h
  tauto

theorem isJsonWs_cases {c : Char} (h : isJsonWs c = true) :
    c = ' ' ∨ c = '\t' ∨ c = '\n' ∨ c = '\r' := by
  unfold isJsonWs at h
  simp only [Bool.or_eq_true, decide_eq_true_eq] at h
  tauto

theorem wordC_not_pyWs {c : Char} (hw : isWordC c = true) : isPyWs c = false := by
  cases hws : isPyWs c with
  | false => rfl
  | true =>
    rcases isPyWs_cases hws with h | h | h | h | h | h <;>
      (subst h; exact absurd hw (by decide))

theorem digitC_not_pyWs {c : Char} (hw : isDigitC c = true) : isPyWs c = false := by
  cases hws : isPyWs c with
  | false => rfl
  | true =>
    rcases isPyWs_cases hws with h | h | h | h | h | h <;>
      (subst h; exact absurd hw (by decide))

theorem digitC_not_jsonWs {c : Char} (hw : isDigitC c = true) : isJsonWs c = false := by
  cases hws : isJsonWs c with
  | false => rfl
  | true =>
    rcases isJsonWs_cases hws with h | h | h | h <;>
      (subst h; exact absurd hw (by decide))

theorem pyLowerChar_idem (c : Char) : pyLowerChar (pyLowerChar c) = pyLowerChar c := by
  unfold pyLowerChar
  by_cases h : ('A' ≤ c && c ≤ 'Z') = true
  · rw [if_pos h]
    have hr : 65 ≤ c.toNat ∧ c.toNat ≤ 90 := by
      simp only [Bool.and_eq_true, decide_eq_true_eq] at h
      exact ⟨(char_le_iff 'A' c).mp h.1, (char_le_iff c 'Z').mp h.2⟩
    have h1 : (Char.ofNat (c.toNat + 32)).toNat = c.toNat + 32 :=
      charOfNat_toNat (by omega)
    rw [if_neg]
    intro hcon
    simp only [Bool.and_eq_true, decide_eq_true_eq] at hcon
    have := (char_le_iff (Char.ofNat (c.toNat + 32)) 'Z').mp hcon.2
    rw [h1] at this
    have hz : ('Z').toNat = 90 := by decide
    omega
  · rw [if_neg h, if_neg h]

theorem pyLower_idem (s : Str) : pyLower (pyLower s) = pyLower s := by
  unfold pyLower
  rw [List.map_map]
  apply List.map_congr_left
  intro c _
  exact pyLowerChar_idem c

theorem takeWhile_append_not {p : Char → Bool} {l : Str} (c : Char) (r : Str)
    (hl : ∀ x ∈ l, p x = true) (hc : p c = false) :
    (l ++ c :: r).takeWhile p = l := by
  induction l with
  | nil => simp [List.takeWhile, hc]
  | cons a t ih =>
    simp only [List.cons_append, List.takeWhile]
    rw [hl a (by simp)]
    simp only [List.cons.injEq, true_and]
    exact ih (fun x hx => hl x (by simp [hx]))

theorem dropWhile_append_not {p : Char → Bool} {l : Str} (c : Char) (r : Str)
    (hl : ∀ x ∈ l, p x = true) (hc : p c = false) :
    (l ++ c :: r).dropWhile p = c :: r := by
  induction l with
  | nil => simp [List.dropWhile, hc]
  | cons a t ih =>
    simp only [List.cons_append, List.dropWhile]
    rw [hl a (by simp)]
    simp only [if_true]
    exact ih (fun x hx => hl x (by simp [hx]))

theorem natDigitsAux_digits (fuel : Nat) :
    ∀ n, n < 10 ^ fuel → ∀ x ∈ natDigitsAux fuel n, isDigitC x = true := by
  induction fuel with
  | zero =>
    intro n hn
    interval_cases n
    simp [natDigitsAux]
  | succ f ih =>
    intro n hn x hx
    unfold natDigitsAux at hx
    by_cases h : n < 10
    · simp only [h, if_true, List.mem_singleton] at hx
      subst hx
      unfold isDigitC digitChar
      have h48 : (Char.ofNat (48 + n)).toNat = 48 + n := charOfNat_toNat (by omega)
      have h0 : ('0').toNat = 48 := by decide
      have h9 : ('9').toNat = 57 := by decide
      simp only [Bool.and_eq_true, decide_eq_true_eq]
      exact ⟨by rw [char_le_iff, h48, h0]; omega, by rw [char_le_iff, h48, h9]; omega⟩
    · simp only [h, if_false, List.mem_append, List.mem_singleton] at hx
      rcases hx with hx | hx
      · have hdiv : n / 10 < 10 ^ f := by
          rw [pow_succ] at hn
          omega
        exact ih (n / 10) hdiv x hx
      · subst hx
        unfold isDigitC digitChar
        have hm : n % 10 < 10 := Nat.mod_lt _ (by omega)
        have h48 : (Char.ofNat (48 + n % 10)).toNat = 48 + n % 10 :=
          charOfNat_toNat (by omega)
        have h0 : ('0').toNat = 48 := by decide
        have h9 : ('9').toNat = 57 := by decide
        simp only [Bool.and_eq_true, decide_eq_true_eq]
        exact ⟨by rw [char_le_iff, h48, h0]; omega, by rw [char_le_iff, h48, h9]; omega⟩

theorem lt_ten_pow (n : Nat) : n < 10 ^ (n + 1) := by
  calc n < 2 ^ n * 2 := by
          have := Nat.lt_two_pow n
          omega
    _ = 2 ^ (n + 1) := by rw [pow_succ]
    _ ≤ 10 ^ (n + 1) := Nat.pow_le_pow_left (by omega) _

theorem natDigits_digits (n : Nat) : ∀ x ∈ natDigits n, isDigitC x = true :=
  natDigitsAux_digits (n + 1) n (lt_ten_pow n)

theorem natDigits_ne_nil (n : Nat) : natDigits n ≠ [] := by
  unfold natDigits natDigitsAux
  by_cases h : n < 10 <;> simp [h]

theorem digitVal_digitChar {d : Nat} (h : d < 10) : digitVal (digitChar d) = d := by
  unfold digitVal digitChar
  rw [charOfNat_toNat (by omega)]
  omega

theorem natDigitsAux_head_ne_zero (fuel : Nat) :
    ∀ n, n < 10 ^ fuel → 1 ≤ n →
      ∃ d ds, natDigitsAux fuel n = d :: ds ∧ d ≠ '0' ∧ isDigitC d = true := by
  induction fuel with
  | zero => intro n hn h1; omega
  | succ f ih =>
    intro n hn h1
    unfold natDigitsAux
    by_cases h : n < 10
    · refine ⟨digitChar n, [], by simp [h], ?_, ?_⟩
      · intro hc
        have h2 := (char_eq_iff _ _).mp hc
        unfold digitChar at h2
        rw [charOfNat_toNat (show 48 + n < 55296 by omega)] at h2
        have h0 : ('0').toNat = 48 := by decide
        omega
      · exact natDigitsAux_digits (f + 1) n hn (digitChar n)
          (by unfold natDigitsAux; simp [h])
    · have hdiv : n / 10 < 10 ^ f := by
        rw [pow_succ] at hn
        omega
      obtain ⟨d, ds, hd, hd0, hdd⟩ := ih (n / 10) hdiv (by omega)
      refine ⟨d, ds ++ [digitChar (n % 10)], ?_, hd0, hdd⟩
      rw [if_neg h, hd]
      simp

theorem natDigits_head_ne_zero (n : Nat) (hn : 1 ≤ n) :
    ∃ d ds, natDigits n = d :: ds ∧ d ≠ '0' ∧ isDigitC d = true :=
  natDigitsAux_head_ne_zero (n + 1) n (lt_ten_pow n) hn

theorem readNatAux_digits (ds : Str) (hds : ∀ c ∈ ds, isDigitC c = true)
    (rest : Str) (hrest : ∀ c, rest.head? = some c → isDigitC c = false)
    (acc : Nat) :
    readNatAux (ds ++ rest) acc =
      (ds.foldl (fun a c => a * 10 + digitVal c) acc, rest) := by
  induction ds generalizing acc with
  | nil =>
    simp only [List.nil_append, List.foldl_nil]
    cases rest with
    | nil => rfl
    | cons c t =>
      have := hrest c rfl
      simp [readNatAux, this]
  | cons d t ih =>
    simp only [List.cons_append, readNatAux, List.foldl_cons]
    rw [hds d (by simp)]
    simp only [if_true]
    exact ih (fun c hc => hds c (by simp [hc])) _

theorem natDigitsAux_foldl (fuel : Nat) :
    ∀ n, n < 10 ^ fuel → ∀ acc,
      (natDigitsAux fuel n).foldl (fun a c => a * 10 + digitVal c) acc =
        acc * 10 ^ (natDigitsAux fuel n).length + n := by
  induction fuel with
  | zero =>
    intro n hn acc
    interval_cases n
    simp [natDigitsAux]
  | succ f ih =>
    intro n hn acc
    unfold natDigitsAux
    by_cases h : n < 10
    · simp [h, digitVal_digitChar h]
    · have hdiv : n / 10 < 10 ^ f := by
        rw [pow_succ] at hn
        omega
      simp only [h, if_false, List.foldl_append, List.foldl_cons, List.foldl_nil,
        List.length_append, List.length_cons, List.length_nil]
      rw [ih (n / 10) hdiv acc]
      rw [digitVal_digitChar (Nat.mod_lt _ (by omega))]
      rw [pow_succ]
      have : n = (n / 10) * 10 + n % 10 := by omega
      ring_nf
      omega

theorem natDigits_foldl (n : Nat) :
    ∀ acc, (natDigits n).foldl (fun a c => a * 10 + digitVal c) acc =
      acc * 10 ^ (natDigits n).length + n :=
  natDigitsAux_foldl (n + 1) n (lt_ten_pow n)

theorem prefix_append_of {pat : Str} (y : Str) :
    ∀ x, pat.isPrefixOf x = true → pat.isPrefixOf (x ++ y) = true := by
  induction pat with
  | nil => intro x _; simp [List.isPrefixOf]
  | cons p ps ih =>
    intro x hx
    obtain ⟨t, rfl, ht⟩ := prefixOf_head hx
    simp only [List.cons_append, List.isPrefixOf, Bool.and_eq_true, beq_self_eq_true,
      true_and]
    exact ih t ht

theorem occursIn_of_prefixAt {pat s : Str} (k : Nat)
    (h : pat.isPrefixOf (s.drop k) = true) : occursIn pat s = true := by
  induction s generalizing k with
  | nil =>
    simp only [List.drop_nil] at h
    rw [occursIn_nil]
    cases pat with
    | nil => rfl
    | cons a l => simp [List.isPrefixOf] at h
  | cons c cs ih =>
    rw [occursIn_cons]
    cases k with
    | zero =>
      simp only [List.drop_zero] at h
      simp [h]
    | succ k' =>
      simp only [List.drop_succ_cons] at h
      rw [ih k' h]
      simp

theorem occursIn_iff (pat s : Str) :
    occursIn pat s = true ↔ ∃ k, pat.isPrefixOf (s.drop k) = true := by
  constructor
  · intro h
    unfold occursIn at h
    cases hf : findSub pat s with
    | none => rw [hf] at h; simp at h
    | some j => exact ⟨j, findSub_some_prefixAt pat s j hf⟩
  · rintro ⟨k, hk⟩
    exact occursIn_of_prefixAt k hk

theorem occursIn_append_left {pat u : Str} (w : Str) (h : occursIn pat u = true) :
    occursIn pat (u ++ w) = true := by
  rw [occursIn_iff] at h ⊢
  obtain ⟨k, hk⟩ := h
  cases pat with
  | nil => exact ⟨0, by simp [List.isPrefixOf]⟩
  | cons p ps =>
    have hkle : k ≤ u.length := by
      by_contra hgt
      rw [List.drop_eq_nil_of_le (by omega)] at hk
      simp [List.isPrefixOf] at hk
    refine ⟨k, ?_⟩
    rw [List.drop_append_of_le_length hkle]
    exact prefix_append_of w _ hk

theorem occursIn_append_right {pat : Str} (u : Str) {w : Str}
    (h : occursIn pat w = true) : occursIn pat (u ++ w) = true := by
  induction u with
  | nil => simpa using h
  | cons a u' ih =>
    rw [List.cons_append, occursIn_cons, ih]
    simp

theorem occursIn_sep_split {pat : Str} {c : Char} (hc : c ∉ pat) (hne : pat ≠ [])
    (a b : Str) :
    occursIn pat (a ++ c :: b) = (occursIn pat a || occursIn pat b) := by
  induction a with
  | nil =>
    simp only [List.nil_append, occursIn_cons]
    have hp : pat.isPrefixOf (c :: b) = false := by
      cases pat with
      | nil => exact absurd rfl hne
      | cons p ps =>
        cases hpp : (p :: ps).isPrefixOf (c :: b) with
        | false => rfl
        | true =>
          obtain ⟨t, ht, _⟩ := prefixOf_head hpp
          injection ht with h1 _
          exact absurd (by simp [h1]) hc
    rw [hp, occursIn_nil]
    cases pat with
    | nil => exact absurd rfl hne
    | cons p ps => simp [List.isEmpty]
  | cons d a' ih =>
    rw [List.cons_append, occursIn_cons, ih, occursIn_cons]
    have : pat.isPrefixOf (d :: (a' ++ c :: b)) = pat.isPrefixOf (d :: a') := by
      have := prefixOf_append_sep hc (d :: a') b
      simpa using this
    rw [this]
    cases pat.isPrefixOf (d :: a') <;> simp

theorem occursIn_false_of_head_not_mem {p : Char} {ps s : Str} (h : p ∉ s) :
    occursIn (p :: ps) s = false := by
  cases ho : occursIn (p :: ps) s with
  | false => rfl
  | true =>
    exfalso
    rw [occursIn_iff] at ho
    obtain ⟨k, hk⟩ := ho
    obtain ⟨t, ht, _⟩ := prefixOf_head hk
    have : p ∈ s.drop k := by rw [ht]; simp
    exact h (List.mem_of_mem_drop this)

theorem pyStrip_cons_ws {c : Char} (hc : isPyWs c = true) (s : Str) :
    pyStrip (c :: s) = pyStrip s := by
  unfold pyStrip
  simp [List.dropWhile, hc]

theorem pyStrip_append_ws {c : Char} (hc : isPyWs c = true) (s : Str) :
    pyStrip (s ++ [c]) = pyStrip s := by
  unfold pyStrip
  rw [List.dropWhile_append]
  by_cases h : (s.dropWhile isPyWs).isEmpty
  · simp only [h, if_true]
    have h2 : s.dropWhile isPyWs = [] := by
      cases hh : s.dropWhile isPyWs with
      | nil => rfl
      | cons x t => rw [hh] at h; simp at h
    rw [h2]
    simp [List.dropWhile, hc]
  · simp only [h, if_false]
    have h2 : ∃ x t, s.dropWhile isPyWs = x :: t := by
      cases hh : s.dropWhile isPyWs with
      | nil => rw [hh] at h; simp at h
      | cons x t => exact ⟨x, t, rfl⟩
    obtain ⟨x, t, hxt⟩ := h2
    rw [hxt]
    simp only [List.reverse_append, List.reverse_cons]
    simp [List.dropWhile, hc]

/-- Key distinctness of an object body, checked recursively. -/
def noDupKeysB : List (Str × JsonVal) → Bool
  | [] => true
  | (k, _) :: t => !(t.any (fun kv => decide (kv.1 = k))) && noDupKeysB t

mutual

/-- Well-formedness of a JSON value: object keys are distinct at every
level.  Every value produced by the parser or the heuristic extractor is
well-formed, and well-formed values are exactly those whose dumps-parse
roundtrip is the identity. -/
def wfB : JsonVal → Bool
  | .jnull => true
  | .jbool _ => true
  | .jint _ => true
  | .jstr _ => true
  | .jarr vs => wfListB vs
  | .jobj ms => noDupKeysB ms && wfMembersB ms

/-- Well-formedness of a list of JSON values. -/
def wfListB : List JsonVal → Bool
  | [] => true
  | v :: vs => wfB v && wfListB vs

/-- Well-formedness of the values of an object body. -/
def wfMembersB : List (Str × JsonVal) → Bool
  | [] => true
  | m :: ms => wfB m.2 && wfMembersB ms

end

mutual

/-- Fuel needed by the value scanner on the serialization of a value. -/
def needV : JsonVal → Nat
  | .jarr vs => 1 + needList vs
  | .jobj ms => 1 + needMembers ms
  | _ => 1

/-- Fuel needed by the array-tail scanner. -/
def needList : List JsonVal → Nat
  | [] => 0
  | v :: vs => needV v + needList vs + 1

/-- Fuel needed by the object-tail scanner. -/
def needMembers : List (Str × JsonVal) → Nat
  | [] => 0
  | m :: ms => needV m.2 + needMembers ms + 1

end

/-- Input that may legally follow a serialized value without extending
it: empty, or starting with anything but a digit, a dot or an exponent
letter. -/
def okAfter : Str → Prop
  | [] => True
  | c :: _ => isDigitC c = false ∧ c ≠ '.' ∧ c ≠ 'e' ∧ c ≠ 'E'

theorem needV_pos (v : JsonVal) : 1 ≤ needV v := by
  cases v <;> simp [needV]

theorem skipWs_cons_not {c : Char} (hc : isJsonWs c = false) (cs : Str) :
    skipWs (c :: cs) = c :: cs := by
  simp [skipWs, List.dropWhile, hc]

theorem skipWs_cons_ws {c : Char} (hc : isJsonWs c = true) (cs : Str) :
    skipWs (c :: cs) = skipWs cs := by
  simp [skipWs, List.dropWhile, hc]

theorem parseVal_ws_cons {c : Char} (hc : isJsonWs c = true) (fuel : Nat) (cs : Str) :
    parseVal fuel (c :: cs) = parseVal fuel cs := by
  cases fuel with
  | zero => rfl
  | succ f =>
    simp only [parseVal]
    rw [skipWs_cons_ws hc]

theorem not_prefix_head {p c : Char} (ps t : Str) (h : p ≠ c) :
    (p :: ps).isPrefixOf (c :: t) = false := by
  simp only [List.isPrefixOf, Bool.and_eq_false_iff]
  left
  simp [h]

theorem isPrefixOf_refl (l : Str) : l.isPrefixOf l = true := by
  induction l with
  | nil => rfl
  | cons c t ih => simp [List.isPrefixOf, ih]

theorem objInsert_fresh {l : List (Str × JsonVal)} {k : Str} (v : JsonVal)
    (h : ∀ kv ∈ l, kv.1 ≠ k) : objInsert l k v = l ++ [(k, v)] := by
  induction l with
  | nil => rfl
  | cons m t ih =>
    obtain ⟨k0, v0⟩ := m
    simp only [objInsert]
    rw [if_neg (h (k0, v0) (by simp))]
    simp only [List.cons_append, List.cons.injEq, true_and]
    exact ih (fun kv hkv => h kv (by simp [hkv]))

theorem noDupKeysB_mid {xs : List (Str × JsonVal)} {k : Str} {v : JsonVal}
    {ys : List (Str × JsonVal)} (h : noDupKeysB (xs ++ (k, v) :: ys) = true) :
    ∀ kv ∈ xs, kv.1 ≠ k := by
  induction xs with
  | nil => simp
  | cons m t ih =>
    obtain ⟨k0, v0⟩ := m
    simp only [List.cons_append, noDupKeysB, Bool.and_eq_true, Bool.not_eq_true',
      List.any_eq_false] at h
    intro kv hkv
    rcases List.mem_cons.mp hkv with rfl | hm
    · intro hh
      simp only at hh
      subst hh
      have h2 := h.1 (k0, v) (by simp)
      simp at h2
    · exact ih h.2 kv hm

theorem dumpBody_cons (c : Char) (s : Str) :
    dumpBody (c :: s) = escChar c ++ dumpBody s := by
  simp [dumpBody]

theorem hexDigitVal_hexChar : ∀ m, m < 16 → hexDigitVal (hexChar m) = some m := by
  decide

theorem parseStrBody_dumpBody (s : Str) (rest : Str) :
    parseStrBody (dumpBody s ++ '"' :: rest) = some (s, rest) := by
  induction s with
  | nil =>
    show parseStrBody ('"' :: rest) = some ([], rest)
    rw [parseStrBody.eq_def]
    simp
  | cons c s' ih =>
    rw [dumpBody_cons, List.append_assoc]
    by_cases hq : c = '"'
    · subst hq
      have he : escChar '"' = ['\\', '"'] := by decide
      rw [he]
      rw [parseStrBody.eq_def]
      simp [ih]
    · by_cases hb : c = '\\'
      · subst hb
        have he : escChar '\\' = ['\\', '\\'] := by decide
        rw [he]
        rw [parseStrBody.eq_def]
        simp [ih]
      · by_cases hn : c = '\n'
        · subst hn
          have he : escChar '\n' = ['\\', 'n'] := by decide
          rw [he]
          rw [parseStrBody.eq_def]
          simp [ih]
        · by_cases ht : c = '\t'
          · subst ht
            have he : escChar '\t' = ['\\', 't'] := by decide
            rw [he]
            rw [parseStrBody.eq_def]
            simp [ih]
          · by_cases hr : c = '\r'
            · subst hr
              have he : escChar '\r' = ['\\', 'r'] := by decide
              rw [he]
              rw [parseStrBody.eq_def]
              simp [ih]
            · by_cases hbs : c = Char.ofNat 8
              · subst hbs
                have he : escChar (Char.ofNat 8) = ['\\', 'b'] := by decide
                rw [he]
                rw [parseStrBody.eq_def]
                simp [ih]
              · by_cases hff : c = Char.ofNat 12
                · subst hff
                  have he : escChar (Char.ofNat 12) = ['\\', 'f'] := by decide
                  rw [he]
                  rw [parseStrBody.eq_def]
                  simp [ih]
                · by_cases hctl : c.toNat < 32
                  · have he : escChar c =
                        ['\\', 'u', '0', '0', hexChar (c.toNat / 16), hexChar (c.toNat % 16)] := by
                      unfold escChar
                      rw [if_neg hq, if_neg hb, if_neg hn, if_neg ht, if_neg hr,
                        if_neg hbs, if_neg hff, if_pos hctl]
                    rw [he]
                    rw [parseStrBody.eq_def]
                    have hd0 : hexDigitVal '0' = some 0 := by decide
                    have hdiv : c.toNat / 16 < 16 := by omega
                    have hmod : c.toNat % 16 < 16 := by omega
                    simp [hd0, hexDigitVal_hexChar _ hdiv, hexDigitVal_hexChar _ hmod]
                    refine ⟨Or.inl (by omega), ih, ?_⟩
                    have hn2 : c.toNat / 16 * 16 + c.toNat % 16 = c.toNat := by omega
                    rw [hn2, char_eq_iff]
                    exact charOfNat_toNat (by omega)
                  · have he : escChar c = [c] := by
                      unfold escChar
                      rw [if_neg hq, if_neg hb, if_neg hn, if_neg ht, if_neg hr,
                        if_neg hbs, if_neg hff, if_neg hctl]
                    rw [he]
                    rw [parseStrBody.eq_def]
                    simp [hq, hb, hctl, ih]

theorem okAfter_head_not_digit {rest : Str} (h : okAfter rest) :
    ∀ c, rest.head? = some c → isDigitC c = false := by
  intro c hc
  cases rest with
  | nil => simp at hc
  | cons d t =>
    simp only [List.head?] at hc
    injection hc with hc
    subst hc
    exact h.1

theorem guardFloat_ok {v : Int} {rest : Str} (h : okAfter rest) :
    guardFloat (v, rest) = some (v, rest) := by
  cases rest with
  | nil => rfl
  | cons c t =>
    obtain ⟨_, h2, h3, h4⟩ := h
    simp [guardFloat, h2, h3, h4]

theorem parseNatTok_natDigits (m : Nat) (rest : Str) (hrest : okAfter rest) :
    parseNatTok (natDigits m ++ rest) = some (m, rest) := by
  by_cases h0 : m = 0
  · subst h0
    have hd : natDigits 0 = ['0'] := by rfl
    rw [hd]
    rfl
  · obtain ⟨d, ds, hd, hdz, hdd⟩ := natDigits_head_ne_zero m (by omega)
    rw [hd]
    simp only [List.cons_append, parseNatTok]
    rw [if_neg hdz, hdd]
    simp only [if_true]
    have hall : ∀ c ∈ ds, isDigitC c = true := by
      intro c hc
      exact natDigits_digits m c (by rw [hd]; simp [hc])
    rw [readNatAux_digits ds hall rest (okAfter_head_not_digit hrest)]
    have hfold := natDigits_foldl m 0
    rw [hd] at hfold
    simp only [List.foldl_cons] at hfold
    have hz : 0 * 10 + digitVal d = digitVal d := by omega
    rw [hz] at hfold
    rw [hfold]
    simp

theorem parseIntTok_intChars (n : Int) (rest : Str) (hrest : okAfter rest) :
    parseIntTok (intChars n ++ rest) = some (n, rest) := by
  cases n with
  | ofNat m =>
    show parseIntTok (natDigits m ++ rest) = _
    obtain ⟨d, ds, hd⟩ : ∃ d ds, natDigits m = d :: ds := by
      cases hh : natDigits m with
      | nil => exact absurd hh (natDigits_ne_nil m)
      | cons d ds => exact ⟨d, ds, rfl⟩
    have hdd : isDigitC d = true := natDigits_digits m d (by rw [hd]; simp)
    have hdm : d ≠ '-' := by
      intro hc
      subst hc
      exact absurd hdd (by decide)
    rw [hd]
    simp only [List.cons_append, parseIntTok]
    rw [if_neg hdm]
    have := parseNatTok_natDigits m rest hrest
    rw [hd] at this
    simp only [List.cons_append] at this
    rw [this]
    exact guardFloat_ok hrest
  | negSucc m =>
    show parseIntTok ('-' :: natDigits (m + 1) ++ rest) = _
    simp only [List.cons_append, parseIntTok, if_pos rfl]
    rw [parseNatTok_natDigits (m + 1) rest hrest]
    have : (-(((m + 1) : Nat) : Int)) = Int.negSucc m := by
      simp [Int.negSucc_eq]
    rw [← this]
    exact guardFloat_ok hrest

theorem bfalse {b : Bool} (h : b = false) : ¬ b = true := by simp [h]

theorem dumps_head (v : JsonVal) :
    ∃ c t, jsonDumps v = c :: t ∧ isJsonWs c = false ∧ c ≠ ']' := by
  cases v with
  | jnull => exact ⟨'n', _, rfl, by decide, by decide⟩
  | jbool b =>
    cases b with
    | true => exact ⟨'t', _, rfl, by decide, by decide⟩
    | false => exact ⟨'f', _, rfl, by decide, by decide⟩
  | jint n =>
    cases n with
    | ofNat m =>
      obtain ⟨d, ds, hd⟩ : ∃ d ds, natDigits m = d :: ds := by
        cases hh : natDigits m with
        | nil => exact absurd hh (natDigits_ne_nil m)
        | cons d ds => exact ⟨d, ds, rfl⟩
      have hdd : isDigitC d = true := natDigits_digits m d (by rw [hd]; simp)
      refine ⟨d, ds, hd, digitC_not_jsonWs hdd, ?_⟩
      intro hc
      subst hc
      exact absurd hdd (by decide)
    | negSucc m => exact ⟨'-', _, rfl, by decide, by decide⟩
  | jstr s => exact ⟨'"', _, rfl, by decide, by decide⟩
  | jarr vs => exact ⟨'[', _, rfl, by decide, by decide⟩
  | jobj ms => exact ⟨obrC, _, rfl, by decide, by decide⟩

theorem okAfter_elems (vs : List JsonVal) (rest : Str) :
    okAfter (elemsSep vs ++ ']' :: rest) := by
  cases vs with
  | nil => exact ⟨by decide, by decide, by decide, by decide⟩
  | cons v vs' => exact ⟨by decide, by decide, by decide, by decide⟩

theorem okAfter_members (ms : List (Str × JsonVal)) (rest : Str) :
    okAfter (membersSep ms ++ cbrC :: rest) := by
  cases ms with
  | nil => exact ⟨by decide, by decide, by decide, by decide⟩
  | cons m ms' => exact ⟨by decide, by decide, by decide, by decide⟩

theorem parse_dumps_all (fuel : Nat) :
    (∀ v rest, wfB v = true → needV v ≤ fuel → okAfter rest →
      parseVal fuel (jsonDumps v ++ rest) = some (v, rest)) ∧
    (∀ vs acc rest, wfListB vs = true → needList vs + 1 ≤ fuel →
      parseArrTail fuel acc (elemsSep vs ++ ']' :: rest) =
        some (.jarr (acc.reverse ++ vs), rest)) ∧
    (∀ ms acc rest, wfMembersB ms = true → noDupKeysB (acc ++ ms) = true →
      needMembers ms + 1 ≤ fuel →
      parseObjTail fuel acc (membersSep ms ++ cbrC :: rest) =
        some (.jobj (acc ++ ms), rest)) := by
  induction fuel with
  | zero =>
    refine ⟨?_, ?_, ?_⟩
    · intro v rest _ hneed _
      have := needV_pos v
      omega
    · intro vs acc rest _ hneed
      omega
    · intro ms acc rest _ _ hneed
      omega
  | succ f ih =>
    obtain ⟨ih1, ih2, ih3⟩ := ih
    refine ⟨?_, ?_, ?_⟩
    · intro v rest hwf hneed hrest
      cases v with
      | jnull =>
        show parseVal (f + 1) ('n' :: 'u' :: 'l' :: 'l' :: rest) = some (.jnull, rest)
        rw [parseVal]
        rw [skipWs_cons_not (by decide)]
        rw [if_pos (show List.isPrefixOf (strL "null") ('n' :: 'u' :: 'l' :: 'l' :: rest) = true from
          prefix_append_of rest (strL "null") (isPrefixOf_refl _))]
        rfl
      | jbool b =>
        cases b with
        | true =>
          show parseVal (f + 1) ('t' :: 'r' :: 'u' :: 'e' :: rest) = some (.jbool true, rest)
          rw [parseVal]
          rw [skipWs_cons_not (by decide)]
          rw [if_neg (show ¬ List.isPrefixOf (strL "null") ('t' :: 'r' :: 'u' :: 'e' :: rest) = true from
            bfalse (not_prefix_head _ _ (by decide)))]
          rw [if_pos (show List.isPrefixOf (strL "true") ('t' :: 'r' :: 'u' :: 'e' :: rest) = true from
            prefix_append_of rest (strL "true") (isPrefixOf_refl _))]
          rfl
        | false =>
          show parseVal (f + 1) ('f' :: 'a' :: 'l' :: 's' :: 'e' :: rest) = some (.jbool false, rest)
          rw [parseVal]
          rw [skipWs_cons_not (by decide)]
          rw [if_neg (show ¬ List.isPrefixOf (strL "null") ('f' :: 'a' :: 'l' :: 's' :: 'e' :: rest) = true from
            bfalse (not_prefix_head _ _ (by decide)))]
          rw [if_neg (show ¬ List.isPrefixOf (strL "true") ('f' :: 'a' :: 'l' :: 's' :: 'e' :: rest) = true from
            bfalse (not_prefix_head _ _ (by decide)))]
          rw [if_pos (show List.isPrefixOf (strL "false") ('f' :: 'a' :: 'l' :: 's' :: 'e' :: rest) = true from
            prefix_append_of rest (strL "false") (isPrefixOf_refl _))]
          rfl
      | jint n =>
        show parseVal (f + 1) (intChars n ++ rest) = some (.jint n, rest)
        obtain ⟨c, t, hct, hws, hd1, hd2, hd3, hd4, hd5, hd6⟩ :
            ∃ c t, intChars n = c :: t ∧ isJsonWs c = false ∧ c ≠ 'n' ∧ c ≠ 't' ∧ c ≠ 'f' ∧
              c ≠ '"' ∧ c ≠ '[' ∧ c ≠ obrC := by
          cases n with
          | ofNat m =>
            obtain ⟨d, ds, hd⟩ : ∃ d ds, natDigits m = d :: ds := by
              cases hh : natDigits m with
              | nil => exact absurd hh (natDigits_ne_nil m)
              | cons d ds => exact ⟨d, ds, rfl⟩
            have hdd : isDigitC d = true := natDigits_digits m d (by rw [hd]; simp)
            refine ⟨d, ds, hd, digitC_not_jsonWs hdd, ?_, ?_, ?_, ?_, ?_, ?_⟩ <;>
              (intro hc; subst hc; exact absurd hdd (by decide))
          | negSucc m =>
            exact ⟨'-', natDigits (m + 1), rfl, by decide, by decide, by decide, by decide,
              by decide, by decide, by decide⟩
        rw [hct, List.cons_append]
        rw [parseVal]
        rw [skipWs_cons_not hws]
        rw [if_neg (show ¬ List.isPrefixOf (strL "null") (c :: (t ++ rest)) = true from
          bfalse (not_prefix_head _ _ (fun hh => hd1 hh.symm)))]
        rw [if_neg (show ¬ List.isPrefixOf (strL "true") (c :: (t ++ rest)) = true from
          bfalse (not_prefix_head _ _ (fun hh => hd2 hh.symm)))]
        rw [if_neg (show ¬ List.isPrefixOf (strL "false") (c :: (t ++ rest)) = true from
          bfalse (not_prefix_head _ _ (fun hh => hd3 hh.symm)))]
        have hp : parseIntTok (c :: (t ++ rest)) = some (n, rest) := by
          have := parseIntTok_intChars n rest hrest
          rw [hct, List.cons_append] at this
          exact this
        simp [hd4, hd5, hd6, hp]
      | jstr s =>
        have hshape : jsonDumps (.jstr s) ++ rest = '"' :: (dumpBody s ++ '"' :: rest) := by
          show dumpStr s ++ rest = _
          unfold dumpStr
          simp [List.append_assoc]
        rw [hshape]
        rw [parseVal]
        rw [skipWs_cons_not (by decide)]
        rw [if_neg (show ¬ List.isPrefixOf (strL "null") ('"' :: (dumpBody s ++ '"' :: rest)) = true from
          bfalse (not_prefix_head _ _ (by decide)))]
        rw [if_neg (show ¬ List.isPrefixOf (strL "true") ('"' :: (dumpBody s ++ '"' :: rest)) = true from
          bfalse (not_prefix_head _ _ (by decide)))]
        rw [if_neg (show ¬ List.isPrefixOf (strL "false") ('"' :: (dumpBody s ++ '"' :: rest)) = true from
          bfalse (not_prefix_head _ _ (by decide)))]
        simp [parseStrBody_dumpBody]
      | jarr vs =>
        cases vs with
        | nil =>
          show parseVal (f + 1) ('[' :: ']' :: rest) = some (.jarr [], rest)
          rw [parseVal]
          rw [skipWs_cons_not (by decide)]
          rw [if_neg (show ¬ List.isPrefixOf (strL "null") ('[' :: ']' :: rest) = true from
            bfalse (not_prefix_head _ _ (by decide)))]
          rw [if_neg (show ¬ List.isPrefixOf (strL "true") ('[' :: ']' :: rest) = true from
            bfalse (not_prefix_head _ _ (by decide)))]
          rw [if_neg (show ¬ List.isPrefixOf (strL "false") ('[' :: ']' :: rest) = true from
            bfalse (not_prefix_head _ _ (by decide)))]
          have h1 : ('[' : Char) ≠ '"' := by decide
          have hsk : skipWs (']' :: rest) = ']' :: rest := skipWs_cons_not (by decide) rest
          simp [h1, hsk]
        | cons v vs' =>
          have hshape : jsonDumps (.jarr (v :: vs')) ++ rest =
              '[' :: (jsonDumps v ++ (elemsSep vs' ++ ']' :: rest)) := by
            show ('[' :: dumpsElems (v :: vs') ++ [']']) ++ rest = _
            rw [dumpsElems]
            simp [List.append_assoc]
          rw [hshape]
          rw [parseVal]
          rw [skipWs_cons_not (by decide)]
          rw [if_neg (show ¬ List.isPrefixOf (strL "null")
              ('[' :: (jsonDumps v ++ (elemsSep vs' ++ ']' :: rest))) = true from
            bfalse (not_prefix_head _ _ (by decide)))]
          rw [if_neg (show ¬ List.isPrefixOf (strL "true")
              ('[' :: (jsonDumps v ++ (elemsSep vs' ++ ']' :: rest))) = true from
            bfalse (not_prefix_head _ _ (by decide)))]
          rw [if_neg (show ¬ List.isPrefixOf (strL "false")
              ('[' :: (jsonDumps v ++ (elemsSep vs' ++ ']' :: rest))) = true from
            bfalse (not_prefix_head _ _ (by decide)))]
          obtain ⟨c, t, hct, hws, hne⟩ := dumps_head v
          have hwf1 : wfB v = true ∧ wfListB vs' = true := by
            have : wfB (.jarr (v :: vs')) = (wfB v && wfListB vs') := by
              simp [wfB, wfListB]
            rw [this] at hwf
            simpa using hwf
          have hneed1 : needV v ≤ f ∧ needList vs' + 1 ≤ f := by
            have : needV (.jarr (v :: vs')) = 1 + (needV v + needList vs' + 1) := by
              simp [needV, needList]
            rw [this] at hneed
            have := needV_pos v
            omega
          have hiv : parseVal f (jsonDumps v ++ (elemsSep vs' ++ ']' :: rest)) =
              some (v, elemsSep vs' ++ ']' :: rest) :=
            ih1 v _ hwf1.1 hneed1.1 (okAfter_elems vs' rest)
          have hit : parseArrTail f [v] (elemsSep vs' ++ ']' :: rest) =
              some (.jarr ([v].reverse ++ vs'), rest) :=
            ih2 vs' [v] rest hwf1.2 hneed1.2
          have h1 : ('[' : Char) ≠ '"' := by decide
          rw [hct, List.cons_append] at hiv
          simp [h1, hct, List.cons_append, skipWs_cons_not hws, hne, hiv, hit]
      | jobj ms =>
        cases ms with
        | nil =>
          show parseVal (f + 1) (obrC :: cbrC :: rest) = some (.jobj [], rest)
          rw [parseVal]
          rw [skipWs_cons_not (by decide)]
          rw [if_neg (show ¬ List.isPrefixOf (strL "null") (obrC :: cbrC :: rest) = true from
            bfalse (not_prefix_head _ _ (by decide)))]
          rw [if_neg (show ¬ List.isPrefixOf (strL "true") (obrC :: cbrC :: rest) = true from
            bfalse (not_prefix_head _ _ (by decide)))]
          rw [if_neg (show ¬ List.isPrefixOf (strL "false") (obrC :: cbrC :: rest) = true from
            bfalse (not_prefix_head _ _ (by decide)))]
          have h1 : obrC ≠ '"' := by decide
          have h2 : obrC ≠ '[' := by decide
          have hsk : skipWs (cbrC :: rest) = cbrC :: rest := skipWs_cons_not (by decide) rest
          simp [h1, h2, hsk]
        | cons m ms' =>
          obtain ⟨k, v⟩ := m
          have hshape : jsonDumps (.jobj ((k, v) :: ms')) ++ rest =
              obrC :: ('"' :: (dumpBody k ++ '"' ::
                (':' :: ' ' :: (jsonDumps v ++ (membersSep ms' ++ cbrC :: rest))))) := by
            show (obrC :: dumpsMembers ((k, v) :: ms') ++ [cbrC]) ++ rest = _
            rw [dumpsMembers, memberStr]
            unfold dumpStr
            simp [List.append_assoc]
          rw [hshape]
          rw [parseVal]
          rw [skipWs_cons_not (by decide)]
          rw [if_neg (show ¬ List.isPrefixOf (strL "null") (obrC :: ('"' :: (dumpBody k ++ '"' ::
                (':' :: ' ' :: (jsonDumps v ++ (membersSep ms' ++ cbrC :: rest)))))) = true from
            bfalse (not_prefix_head _ _ (by decide)))]
          rw [if_neg (show ¬ List.isPrefixOf (strL "true") (obrC :: ('"' :: (dumpBody k ++ '"' ::
                (':' :: ' ' :: (jsonDumps v ++ (membersSep ms' ++ cbrC :: rest)))))) = true from
            bfalse (not_prefix_head _ _ (by decide)))]
          rw [if_neg (show ¬ List.isPrefixOf (strL "false") (obrC :: ('"' :: (dumpBody k ++ '"' ::
                (':' :: ' ' :: (jsonDumps v ++ (membersSep ms' ++ cbrC :: rest)))))) = true from
            bfalse (not_prefix_head _ _ (by decide)))]
          have h1 : obrC ≠ '"' := by decide
          have h2 : obrC ≠ '[' := by decide
          have hwf1 : noDupKeysB ((k, v) :: ms') = true ∧ wfB v = true ∧
              wfMembersB ms' = true := by
            have : wfB (.jobj ((k, v) :: ms')) =
                (noDupKeysB ((k, v) :: ms') && (wfB v && wfMembersB ms')) := by
              simp [wfB, wfMembersB]
            rw [this] at hwf
            simpa using hwf
          have hneed1 : needV v ≤ f ∧ needMembers ms' + 1 ≤ f := by
            have : needV (.jobj ((k, v) :: ms')) = 1 + (needV v + needMembers ms' + 1) := by
              simp [needV, needMembers]
            rw [this] at hneed
            have := needV_pos v
            omega
          have hiv : parseVal f (jsonDumps v ++ (membersSep ms' ++ cbrC :: rest)) =
              some (v, membersSep ms' ++ cbrC :: rest) :=
            ih1 v _ hwf1.2.1 hneed1.1 (okAfter_members ms' rest)
          have hit : parseObjTail f [(k, v)] (membersSep ms' ++ cbrC :: rest) =
              some (.jobj ([(k, v)] ++ ms'), rest) :=
            ih3 ms' [(k, v)] rest hwf1.2.2 (by simpa using hwf1.1) hneed1.2
          have h3 : ('"' : Char) ≠ cbrC := by decide
          have hsk1 : ∀ cs, skipWs ('"' :: cs) = '"' :: cs := skipWs_cons_not (by decide)
          have hsk2 : ∀ cs, skipWs (':' :: cs) = ':' :: cs := skipWs_cons_not (by decide)
          have hpw : ∀ cs, parseVal f (' ' :: cs) = parseVal f cs := parseVal_ws_cons (by decide) f
          simp [h1, h2, h3, hsk1, hsk2, hpw, parseStrBody_dumpBody, hiv, hit, objInsert]
    · intro vs acc rest hwf hneed
      cases vs with
      | nil =>
        show parseArrTail (f + 1) acc (']' :: rest) = _
        rw [parseArrTail]
        rw [skipWs_cons_not (by decide)]
        simp
      | cons v vs' =>
        have hshape : elemsSep (v :: vs') ++ ']' :: rest =
            ',' :: ' ' :: (jsonDumps v ++ (elemsSep vs' ++ ']' :: rest)) := by
          rw [elemsSep]
          simp [List.append_assoc]
        rw [hshape]
        rw [parseArrTail]
        rw [skipWs_cons_not (by decide)]
        have hwf1 : wfB v = true ∧ wfListB vs' = true := by
          have : wfListB (v :: vs') = (wfB v && wfListB vs') := by simp [wfListB]
          rw [this] at hwf
          simpa using hwf
        have hneed1 : needV v ≤ f ∧ needList vs' + 1 ≤ f := by
          have : needList (v :: vs') = needV v + needList vs' + 1 := by simp [needList]
          rw [this] at hneed
          have := needV_pos v
          omega
        have hiv : parseVal f (jsonDumps v ++ (elemsSep vs' ++ ']' :: rest)) =
            some (v, elemsSep vs' ++ ']' :: rest) :=
          ih1 v _ hwf1.1 hneed1.1 (okAfter_elems vs' rest)
        have hit : parseArrTail f (v :: acc) (elemsSep vs' ++ ']' :: rest) =
            some (.jarr ((v :: acc).reverse ++ vs'), rest) :=
          ih2 vs' (v :: acc) rest hwf1.2 hneed1.2
        have hpw : ∀ cs, parseVal f (' ' :: cs) = parseVal f cs := parseVal_ws_cons (by decide) f
        simp [hpw, hiv, hit]
    · intro ms acc rest hwf hdup hneed
      cases ms with
      | nil =>
        show parseObjTail (f + 1) acc (cbrC :: rest) = _
        rw [parseObjTail]
        rw [skipWs_cons_not (by decide)]
        simp
      | cons m ms' =>
        obtain ⟨k, v⟩ := m
        have hshape : membersSep ((k, v) :: ms') ++ cbrC :: rest =
            ',' :: ' ' :: ('"' :: (dumpBody k ++ '"' ::
              (':' :: ' ' :: (jsonDumps v ++ (membersSep ms' ++ cbrC :: rest))))) := by
          rw [membersSep, memberStr]
          unfold dumpStr
          simp [List.append_assoc]
        rw [hshape]
        rw [parseObjTail]
        rw [skipWs_cons_not (by decide)]
        have hwf1 : wfB v = true ∧ wfMembersB ms' = true := by
          have : wfMembersB ((k, v) :: ms') = (wfB v && wfMembersB ms') := by
            simp [wfMembersB]
          rw [this] at hwf
          simpa using hwf
        have hneed1 : needV v ≤ f ∧ needMembers ms' + 1 ≤ f := by
          have : needMembers ((k, v) :: ms') = needV v + needMembers ms' + 1 := by
            simp [needMembers]
          rw [this] at hneed
          have := needV_pos v
          omega
        have hiv : parseVal f (jsonDumps v ++ (membersSep ms' ++ cbrC :: rest)) =
            some (v, membersSep ms' ++ cbrC :: rest) :=
          ih1 v _ hwf1.1 hneed1.1 (okAfter_members ms' rest)
        have hins : objInsert acc k v = acc ++ [(k, v)] :=
          objInsert_fresh v (noDupKeysB_mid hdup)
        have hdup2 : noDupKeysB ((acc ++ [(k, v)]) ++ ms') = true := by
          rw [List.append_assoc]
          simpa using hdup
        have hit : parseObjTail f (acc ++ [(k, v)]) (membersSep ms' ++ cbrC :: rest) =
            some (.jobj ((acc ++ [(k, v)]) ++ ms'), rest) :=
          ih3 ms' (acc ++ [(k, v)]) rest hwf1.2 hdup2 hneed1.2
        have hc1 : (',' : Char) ≠ cbrC := by decide
        have h3 : ('"' : Char) ≠ cbrC := by decide
        have hsk1 : ∀ cs, skipWs ('"' :: cs) = '"' :: cs := skipWs_cons_not (by decide)
        have hsk2 : ∀ cs, skipWs (':' :: cs) = ':' :: cs := skipWs_cons_not (by decide)
        have hskw : ∀ cs, skipWs (' ' :: cs) = skipWs cs := skipWs_cons_ws (by decide)
        have hpw : ∀ cs, parseVal f (' ' :: cs) = parseVal f cs := parseVal_ws_cons (by decide) f
        simp [hc1, h3, hsk1, hsk2, hskw, hpw, parseStrBody_dumpBody, hiv, hins, hit]

mutual

/-- The fuel needed by the value scanner never exceeds the length of the
serialized value. -/
theorem needV_le : (v : JsonVal) → needV v ≤ (jsonDumps v).length
  | .jnull => by simp [needV, jsonDumps, strL]
  | .jbool true => by simp [needV, jsonDumps, strL]
  | .jbool false => by simp [needV, jsonDumps, strL]
  | .jint n => by
    show needV (.jint n) ≤ (intChars n).length
    cases n with
    | ofNat m =>
      have h := natDigits_ne_nil m
      show needV (.jint (.ofNat m)) ≤ (natDigits m).length
      cases hh : natDigits m with
      | nil => exact absurd hh h
      | cons a b => simp [needV]
    | negSucc m => simp [needV, intChars]
  | .jstr s => by
    show needV (.jstr s) ≤ (dumpStr s).length
    simp [needV, dumpStr]
  | .jarr vs => by
    have h := needList_le vs
    show needV (.jarr vs) ≤ ('[' :: dumpsElems vs ++ [']']).length
    cases vs with
    | nil => simp [needV, needList, dumpsElems]
    | cons v vs' =>
      have h1 := needV_le v
      have h2 := needList_le vs'
      show 1 + (needV v + needList vs' + 1) ≤ ('[' :: (jsonDumps v ++ elemsSep vs') ++ [']']).length
      simp only [List.cons_append, List.length_cons, List.length_append, List.length_cons,
        List.length_nil]
      omega
  | .jobj ms => by
    show needV (.jobj ms) ≤ (obrC :: dumpsMembers ms ++ [cbrC]).length
    cases ms with
    | nil => simp [needV, needMembers, dumpsMembers]
    | cons m ms' =>
      have h1 := needV_le m.2
      have h2 := needMembers_le ms'
      show 1 + (needV m.2 + needMembers ms' + 1) ≤
        (obrC :: (memberStr m ++ membersSep ms') ++ [cbrC]).length
      have h3 : (jsonDumps m.2).length ≤ (memberStr m).length := by
        obtain ⟨k, v⟩ := m
        show _ ≤ (dumpStr k ++ ':' :: ' ' :: jsonDumps v).length
        simp [dumpStr]
        omega
      simp only [List.cons_append, List.length_cons, List.length_append, List.length_nil]
      omega

/-- The fuel needed by the array-tail scanner is bounded by the length of
the separator-led serialization of the remaining elements. -/
theorem needList_le : (vs : List JsonVal) → needList vs ≤ (elemsSep vs).length
  | [] => by simp [needList, elemsSep]
  | v :: vs => by
    have h1 := needV_le v
    have h2 := needList_le vs
    show needV v + needList vs + 1 ≤ (',' :: ' ' :: (jsonDumps v ++ elemsSep vs)).length
    simp only [List.length_cons, List.length_append]
    omega

/-- The fuel needed by the object-tail scanner is bounded by the length of
the separator-led serialization of the remaining members. -/
theorem needMembers_le : (ms : List (Str × JsonVal)) → needMembers ms ≤ (membersSep ms).length
  | [] => by simp [needMembers, membersSep]
  | m :: ms => by
    have h1 := needV_le m.2
    have h2 := needMembers_le ms
    show needV m.2 + needMembers ms + 1 ≤ (',' :: ' ' :: (memberStr m ++ membersSep ms)).length
    have h3 : (jsonDumps m.2).length ≤ (memberStr m).length := by
      obtain ⟨k, v⟩ := m
      show _ ≤ (dumpStr k ++ ':' :: ' ' :: jsonDumps v).length
      simp [dumpStr]
      omega
    simp only [List.length_cons, List.length_append]
    omega

end

/-- json.loads inverts json.dumps on values whose objects carry no
duplicate keys at any level. -/
theorem jsonLoads_dumps (v : JsonVal) (h : wfB v = true) :
    jsonLoads (jsonDumps v) = some v := by
  have h1 := (parse_dumps_all ((jsonDumps v).length + 1)).1 v [] h
    (by have := needV_le v; omega) trivial
  rw [List.append_nil] at h1
  unfold jsonLoads
  rw [h1]
  rfl

theorem occursIn_false_findSub {pat s : Str} (h : occursIn pat s = false) :
    findSub pat s = none := by
  unfold occursIn at h
  cases hf : findSub pat s with
  | none => rfl
  | some j => rw [hf] at h; simp at h

theorem markerStrip_none {mark s : Str} (h : occursIn mark s = false) :
    markerStrip mark s = none := by
  unfold markerStrip
  rw [occursIn_false_findSub h]

theorem not_mem_of_occursIn_single {c : Char} {s : Str}
    (h : occursIn [c] s = false) : c ∉ s := by
  intro hmem
  obtain ⟨a, b, rfl⟩ := List.append_of_mem hmem
  have hp : [c].isPrefixOf ((a ++ c :: b).drop a.length) = true := by
    rw [List.drop_left]
    simp [List.isPrefixOf]
  rw [occursIn_of_prefixAt a.length hp] at h
  exact Bool.true_eq_false.mp h

theorem prefix_false_inner_sep {pat : Str} {c : Char} (hc : c ∉ pat)
    (a v : Str) (ha : occursIn pat (a ++ [c]) = false) :
    ∀ k, k < a.length + 1 → pat.isPrefixOf (((a ++ [c]) ++ v).drop k) = false := by
  intro k hk
  have hkle : k ≤ (a ++ [c]).length := by simp; omega
  rw [List.drop_append_of_le_length hkle]
  have hkla : k ≤ a.length := by omega
  rw [List.drop_append_of_le_length hkla, List.append_assoc, List.singleton_append]
  rw [prefixOf_append_sep hc]
  cases hp : pat.isPrefixOf (a.drop k) with
  | false => rfl
  | true =>
    exfalso
    have : occursIn pat a = true := occursIn_of_prefixAt k hp
    rw [occursIn_append_left [c] this] at ha
    exact Bool.true_eq_false.mp ha

theorem markerStrip_wrapped (m0 : Char) (mrest t : Str)
    (hnl : '\n' ∉ m0 :: mrest)
    (hocc : occursIn (m0 :: mrest) (('\n' :: t) ++ ['\n']) = false) :
    markerStrip (m0 :: mrest)
      ((m0 :: mrest) ++ ('\n' :: (t ++ '\n' :: (m0 :: mrest)))) = some (pyStrip t) := by
  have h1 : findSub (m0 :: mrest) ((m0 :: mrest) ++ ('\n' :: (t ++ '\n' :: (m0 :: mrest)))) =
      some 0 := by
    have hp : (m0 :: mrest).isPrefixOf ((m0 :: mrest) ++ ('\n' :: (t ++ '\n' :: (m0 :: mrest)))) = true :=
      prefix_append_of _ _ (isPrefixOf_refl _)
    rw [List.cons_append] at hp ⊢
    rw [findSub_cons, if_pos hp]
  have h3 : findSub (m0 :: mrest) ('\n' :: (t ++ '\n' :: (m0 :: mrest))) =
      some (t.length + 2) := by
    have hsh : '\n' :: (t ++ '\n' :: (m0 :: mrest)) =
        ((('\n' :: t) ++ ['\n']) ++ (m0 :: mrest)) := by
      simp
    rw [hsh]
    have := findSub_eq_some_of (m0 :: mrest) ((('\n' :: t) ++ ['\n']) ++ (m0 :: mrest))
      (('\n' :: t) ++ ['\n']).length
      (by rw [List.drop_left]; exact isPrefixOf_refl _)
      (by
        intro k hk
        have hk2 : k < ('\n' :: t).length + 1 := by simpa using hk
        exact bfalse (prefix_false_inner_sep hnl ('\n' :: t) (m0 :: mrest) hocc k hk2))
    simpa using this
  have h4 : ('\n' :: (t ++ '\n' :: (m0 :: mrest))).take (t.length + 2) =
      '\n' :: (t ++ ['\n']) := by
    have hsh : '\n' :: (t ++ '\n' :: (m0 :: mrest)) =
        ((('\n' :: t) ++ ['\n']) ++ (m0 :: mrest)) := by
      simp
    have hlen : (('\n' :: t) ++ ['\n']).length = t.length + 2 := by simp
    rw [hsh, ← hlen, List.take_left]
    simp
  have h5 : pyStrip ('\n' :: (t ++ ['\n'])) = pyStrip t := by
    rw [pyStrip_cons_ws (by decide)]
    rw [show t ++ ['\n'] = t ++ ['\n'] from rfl, pyStrip_append_ws (by decide)]
  have hjson : (strL "json").isPrefixOf ('\n' :: (t ++ '\n' :: (m0 :: mrest))) = false :=
    not_prefix_head _ _ (by decide)
  unfold markerStrip
  simp only [h1, Nat.zero_add]
  rw [List.drop_left]
  simp only [hjson, Bool.false_eq_true, if_false, h3, h4, h5]

theorem resolveSteps_clean {s : Str} {v : JsonVal}
    (hf : occursIn fenceMark s = false) (hq : occursIn tqMark s = false)
    (hl : jsonLoads s = some v) :
    resolveSteps s = v := by
  unfold resolveSteps
  simp only [markerStrip_none hf, markerStrip_none hq, hl]


/-- Closed form of the tool-using loop body: some number n of rounds is
executed, each appending the record and candidate parsed from that
round's oracle answers; rounds before the last are not successful, and a
stop before fuel exhaustion means the last round reported success. -/
theorem runToolAux_master (oracle tool : Nat → Str) :
    ∀ (fuel i : Nat) (cand : Str) (hist : List ToolRec) (cands : List Str),
    ∃ n, n ≤ fuel ∧
      runToolAux oracle tool fuel i cand hist cands =
        ((if n = 0 then cand else (parseReactStep (oracle (i + n - 1))).candidate),
         hist.reverse ++ (List.range n).map (fun j =>
           ⟨i + j, (parseReactStep (oracle (i + j))).observation,
            (parseReactStep (oracle (i + j))).thought,
            (parseReactStep (oracle (i + j))).finish,
            (summarizeToolOutput (tool (i + j))).status,
            (summarizeToolOutput (tool (i + j))).exitCode,
            (summarizeToolOutput (tool (i + j))).errHead⟩),
         cands.reverse ++ (List.range n).map (fun j =>
           (parseReactStep (oracle (i + j))).candidate)) ∧
      (∀ j, j + 1 < n → ¬ (summarizeToolOutput (tool (i + j))).status = strL "success") ∧
      (n < fuel → 0 < n ∧ (summarizeToolOutput (tool (i + n - 1))).status = strL "success") := by
  intro fuel
  induction fuel with
  | zero =>
    intro i cand hist cands
    refine ⟨0, le_refl 0, ?_, ?_, ?_⟩
    · simp [runToolAux]
    · intro j hj; omega
    · intro h; omega
  | succ f ih =>
    intro i cand hist cands
    by_cases hs : (summarizeToolOutput (tool i)).status = strL "success"
    · refine ⟨1, by omega, ?_, ?_, ?_⟩
      · show runToolAux oracle tool (f + 1) i cand hist cands = _
        rw [runToolAux]
        rw [if_pos hs]
        simp [List.range_succ]
      · intro j hj; omega
      · intro _; exact ⟨by omega, by simpa using hs⟩
    · obtain ⟨n, hn, heq, hc1, hc2⟩ := ih (i + 1)
        (parseReactStep (oracle i)).candidate
        (⟨i, (parseReactStep (oracle i)).observation, (parseReactStep (oracle i)).thought,
          (parseReactStep (oracle i)).finish, (summarizeToolOutput (tool i)).status,
          (summarizeToolOutput (tool i)).exitCode, (summarizeToolOutput (tool i)).errHead⟩ :: hist)
        ((parseReactStep (oracle i)).candidate :: cands)
      refine ⟨n + 1, by omega, ?_, ?_, ?_⟩
      · show runToolAux oracle tool (f + 1) i cand hist cands = _
        rw [runToolAux]
        rw [if_neg hs]
        rw [heq]
        have harr : ∀ j : Nat, i + 1 + j = i + (j + 1) := by intro j; omega
        have hmap1 : (List.range n).map (fun j =>
            (⟨i + 1 + j, (parseReactStep (oracle (i + 1 + j))).observation,
              (parseReactStep (oracle (i + 1 + j))).thought,
              (parseReactStep (oracle (i + 1 + j))).finish,
              (summarizeToolOutput (tool (i + 1 + j))).status,
              (summarizeToolOutput (tool (i + 1 + j))).exitCode,
              (summarizeToolOutput (tool (i + 1 + j))).errHead⟩ : ToolRec)) =
            (List.range n).map (fun j =>
            (⟨i + (j + 1), (parseReactStep (oracle (i + (j + 1)))).observation,
              (parseReactStep (oracle (i + (j + 1)))).thought,
              (parseReactStep (oracle (i + (j + 1)))).finish,
              (summarizeToolOutput (tool (i + (j + 1)))).status,
              (summarizeToolOutput (tool (i + (j + 1)))).exitCode,
              (summarizeToolOutput (tool (i + (j + 1)))).errHead⟩ : ToolRec)) := by
          apply List.map_congr_left
          intro j _
          rw [harr j]
        have hmap2 : (List.range n).map (fun j =>
            (parseReactStep (oracle (i + 1 + j))).candidate) =
            (List.range n).map (fun j =>
            (parseReactStep (oracle (i + (j + 1)))).candidate) := by
          apply List.map_congr_left
          intro j _
          rw [harr j]
        rw [hmap1, hmap2]
        have hcand : (if n = 0 then (parseReactStep (oracle i)).candidate
            else (parseReactStep (oracle (i + 1 + n - 1))).candidate) =
            (if n + 1 = 0 then cand else (parseReactStep (oracle (i + (n + 1) - 1))).candidate) := by
          by_cases h0 : n = 0
          · subst h0
            simp
          · rw [if_neg h0, if_neg (by omega : ¬ n + 1 = 0)]
            have : i + 1 + n - 1 = i + (n + 1) - 1 := by omega
            rw [this]
        rw [hcand]
        simp [List.range_succ_eq_map, List.map_map, Function.comp, List.reverse_cons,
          List.append_assoc]
      · intro j hj
        cases j with
        | zero => simpa using hs
        | succ j' =>
          have := hc1 j' (by omega)
          have harr : i + 1 + j' = i + (j' + 1) := by omega
          rw [harr] at this
          exact this
      · intro hlt
        obtain ⟨hpos, hsucc⟩ := hc2 (by omega)
        refine ⟨by omega, ?_⟩
        have harr : i + 1 + n - 1 = i + (n + 1) - 1 := by omega
        rw [harr] at hsucc
        exact hsucc

theorem runPlainAux_master (oracle : Nat → Str) :
    ∀ (fuel i : Nat) (cand : Str) (hist : List PlainRec) (cands : List Str),
    ∃ n, n ≤ fuel ∧
      runPlainAux oracle fuel i cand hist cands =
        ((if n = 0 then cand else (parsePlainReact (oracle (i + n - 1))).candidate),
         hist.reverse ++ (List.range n).map (fun j =>
           ⟨i + j, (parsePlainReact (oracle (i + j))).thought,
            (parsePlainReact (oracle (i + j))).candidate.length,
            (parsePlainReact (oracle (i + j))).finish⟩),
         cands.reverse ++ (List.range n).map (fun j =>
           (parsePlainReact (oracle (i + j))).candidate)) ∧
      (∀ j, j + 1 < n → ¬ ((parsePlainReact (oracle (i + j))).finish = true ∧
        ¬ (parsePlainReact (oracle (i + j))).candidate.isEmpty = true)) ∧
      (n < fuel → 0 < n ∧ (parsePlainReact (oracle (i + n - 1))).finish = true ∧
        ¬ (parsePlainReact (oracle (i + n - 1))).candidate.isEmpty = true) := by
  intro fuel
  induction fuel with
  | zero =>
    intro i cand hist cands
    refine ⟨0, le_refl 0, ?_, ?_, ?_⟩
    · simp [runPlainAux]
    · intro j hj; omega
    · intro h; omega
  | succ f ih =>
    intro i cand hist cands
    by_cases hs : (parsePlainReact (oracle i)).finish = true ∧
        ¬ (parsePlainReact (oracle i)).candidate.isEmpty = true
    · refine ⟨1, by omega, ?_, ?_, ?_⟩
      · show runPlainAux oracle (f + 1) i cand hist cands = _
        rw [runPlainAux]
        rw [if_pos hs]
        simp [List.range_succ]
      · intro j hj; omega
      · intro _
        refine ⟨by omega, ?_⟩
        simpa using hs
    · obtain ⟨n, hn, heq, hc1, hc2⟩ := ih (i + 1)
        (parsePlainReact (oracle i)).candidate
        (⟨i, (parsePlainReact (oracle i)).thought,
          (parsePlainReact (oracle i)).candidate.length,
          (parsePlainReact (oracle i)).finish⟩ :: hist)
        ((parsePlainReact (oracle i)).candidate :: cands)
      refine ⟨n + 1, by omega, ?_, ?_, ?_⟩
      · show runPlainAux oracle (f + 1) i cand hist cands = _
        rw [runPlainAux]
        rw [if_neg hs]
        rw [heq]
        have harr : ∀ j : Nat, i + 1 + j = i + (j + 1) := by intro j; omega
        have hmap1 : (List.range n).map (fun j =>
            (⟨i + 1 + j, (parsePlainReact (oracle (i + 1 + j))).thought,
              (parsePlainReact (oracle (i + 1 + j))).candidate.length,
              (parsePlainReact (oracle (i + 1 + j))).finish⟩ : PlainRec)) =
            (List.range n).map (fun j =>
            (⟨i + (j + 1), (parsePlainReact (oracle (i + (j + 1)))).thought,
              (parsePlainReact (oracle (i + (j + 1)))).candidate.length,
              (parsePlainReact (oracle (i + (j + 1)))).finish⟩ : PlainRec)) := by
          apply List.map_congr_left
          intro j _
          rw [harr j]
        have hmap2 : (List.range n).map (fun j =>
            (parsePlainReact (oracle (i + 1 + j))).candidate) =
            (List.range n).map (fun j =>
            (parsePlainReact (oracle (i + (j + 1)))).candidate) := by
          apply List.map_congr_left
          intro j _
          rw [harr j]
        rw [hmap1, hmap2]
        have hcand : (if n = 0 then (parsePlainReact (oracle i)).candidate
            else (parsePlainReact (oracle (i + 1 + n - 1))).candidate) =
            (if n + 1 = 0 then cand else (parsePlainReact (oracle (i + (n + 1) - 1))).candidate) := by
          by_cases h0 : n = 0
          · subst h0
            simp
          · rw [if_neg h0, if_neg (by omega : ¬ n + 1 = 0)]
            have : i + 1 + n - 1 = i + (n + 1) - 1 := by omega
            rw [this]
        rw [hcand]
        simp [List.range_succ_eq_map, List.map_map, Function.comp, List.reverse_cons,
          List.append_assoc]
      · intro j hj
        cases j with
        | zero =>
          simpa using hs
        | succ j' =>
          have := hc1 j' (by omega)
          have harr : i + 1 + j' = i + (j' + 1) := by omega
          rw [harr] at this
          exact this
      · intro hlt
        obtain ⟨hpos, hsucc⟩ := hc2 (by omega)
        refine ⟨by omega, ?_⟩
        have harr : i + 1 + n - 1 = i + (n + 1) - 1 := by omega
        rw [harr] at hsucc
        exact hsucc


theorem runToolAux_agree (oracle tool oracle2 tool2 : Nat → Str) :
    ∀ (fuel i r : Nat) (cand : Str) (hist : List ToolRec) (cands : List Str),
    r < fuel →
    (∀ j, j < r → ¬ (summarizeToolOutput (tool (i + j))).status = strL "success") →
    (summarizeToolOutput (tool (i + r))).status = strL "success" →
    (∀ j, j ≤ r → oracle2 (i + j) = oracle (i + j)) →
    (∀ j, j ≤ r → tool2 (i + j) = tool (i + j)) →
    runToolAux oracle2 tool2 fuel i cand hist cands =
      runToolAux oracle tool fuel i cand hist cands := by
  intro fuel
  induction fuel with
  | zero =>
    intro i r cand hist cands hr
    omega
  | succ f ih =>
    intro i r cand hist cands hr hbef hsucc hao hat
    have ho0 : oracle2 i = oracle i := by
      have := hao 0 (by omega)
      simpa using this
    have ht0 : tool2 i = tool i := by
      have := hat 0 (by omega)
      simpa using this
    by_cases hs0 : (summarizeToolOutput (tool i)).status = strL "success"
    · rw [runToolAux, runToolAux, ho0, ht0, if_pos hs0, if_pos hs0]
    · cases r with
      | zero => exact absurd (by simpa using hsucc) hs0
      | succ r' =>
        rw [runToolAux, runToolAux, ho0, ht0, if_neg hs0, if_neg hs0]
        apply ih (i + 1) r'
        · omega
        · intro j hj
          have := hbef (j + 1) (by omega)
          have harr : i + (j + 1) = i + 1 + j := by omega
          rw [harr] at this
          exact this
        · have := hsucc
          have harr : i + (r' + 1) = i + 1 + r' := by omega
          rw [harr] at this
          exact this
        · intro j hj
          have := hao (j + 1) (by omega)
          have harr : i + (j + 1) = i + 1 + j := by omega
          rw [harr] at this
          exact this
        · intro j hj
          have := hat (j + 1) (by omega)
          have harr : i + (j + 1) = i + 1 + j := by omega
          rw [harr] at this
          exact this

theorem runPlainAux_agree (oracle oracle2 : Nat → Str) :
    ∀ (fuel i r : Nat) (cand : Str) (hist : List PlainRec) (cands : List Str),
    r < fuel →
    (∀ j, j < r → ¬ ((parsePlainReact (oracle (i + j))).finish = true ∧
      ¬ (parsePlainReact (oracle (i + j))).candidate.isEmpty = true)) →
    ((parsePlainReact (oracle (i + r))).finish = true ∧
      ¬ (parsePlainReact (oracle (i + r))).candidate.isEmpty = true) →
    (∀ j, j ≤ r → oracle2 (i + j) = oracle (i + j)) →
    runPlainAux oracle2 fuel i cand hist cands =
      runPlainAux oracle fuel i cand hist cands := by
  intro fuel
  induction fuel with
  | zero =>
    intro i r cand hist cands hr
    omega
  | succ f ih =>
    intro i r cand hist cands hr hbef hsucc hao
    have ho0 : oracle2 i = oracle i := by
      have := hao 0 (by omega)
      simpa using this
    by_cases hs0 : (parsePlainReact (oracle i)).finish = true ∧
        ¬ (parsePlainReact (oracle i)).candidate.isEmpty = true
    · rw [runPlainAux, runPlainAux, ho0, if_pos hs0, if_pos hs0]
    · cases r with
      | zero => exact absurd (by simpa using hsucc) hs0
      | succ r' =>
        rw [runPlainAux, runPlainAux, ho0, if_neg hs0, if_neg hs0]
        apply ih (i + 1) r'
        · omega
        · intro j hj
          have := hbef (j + 1) (by omega)
          have harr : i + (j + 1) = i + 1 + j := by omega
          rw [harr] at this
          exact this
        · have := hsucc
          have harr : i + (r' + 1) = i + 1 + r' := by omega
          rw [harr] at this
          exact this
        · intro j hj
          have := hao (j + 1) (by omega)
          have harr : i + (j + 1) = i + 1 + j := by omega
          rw [harr] at this
          exact this

theorem reFind_none {α : Type} {lit : Str} (tok : Str → Option α) {s : Str}
    (h : occursIn lit s = false) : reFind lit tok s = none := by
  induction s with
  | nil => rfl
  | cons c cs ih =>
    rw [occursIn_cons] at h
    simp only [Bool.or_eq_false_iff] at h
    rw [reFind, if_neg (by simp [h.1])]
    exact ih h.2

theorem reFind_at_head {α : Type} (l0 : Char) (lrest r : Str) (tok : Str → Option α)
    (a : α) (htok : tok r = some a) :
    reFind (l0 :: lrest) tok ((l0 :: lrest) ++ r) = some a := by
  have hp : (l0 :: lrest).isPrefixOf ((l0 :: lrest) ++ r) = true :=
    prefix_append_of _ _ (isPrefixOf_refl _)
  have hd : ((l0 :: lrest) ++ r).drop (l0 :: lrest).length = r := List.drop_left _ _
  rw [List.cons_append] at hp hd ⊢
  simp [reFind, hp, hd, htok]

theorem splitLinesAux_no_nl {s : Str} (h : '\n' ∉ s) (acc : Str) :
    splitLinesAux s acc = if (acc.reverse ++ s).isEmpty then [] else [acc.reverse ++ s] := by
  induction s generalizing acc with
  | nil => simp [splitLinesAux]
  | cons c cs ih =>
    have hc : c ≠ '\n' := fun hh => h (by simp [hh])
    rw [splitLinesAux, if_neg hc]
    rw [ih (by intro hm; exact h (by simp [hm])) (c :: acc)]
    rw [show (c :: acc).reverse ++ cs = acc.reverse ++ c :: cs from by simp]

theorem splitLinesAux_sep {a : Str} (h : '\n' ∉ a) (w : Str) (acc : Str) :
    splitLinesAux (a ++ '\n' :: w) acc = (acc.reverse ++ a) :: splitLinesAux w [] := by
  induction a generalizing acc with
  | nil => simp [splitLinesAux]
  | cons c cs ih =>
    have hc : c ≠ '\n' := fun hh => h (by simp [hh])
    rw [List.cons_append, splitLinesAux, if_neg hc]
    rw [ih (by intro hm; exact h (by simp [hm])) (c :: acc)]
    simp

theorem mem_splitLinesAux_no_nl {s : Str} :
    ∀ {acc : Str}, '\n' ∉ acc → ∀ x ∈ splitLinesAux s acc, '\n' ∉ x := by
  induction s with
  | nil =>
    intro acc hacc x hx
    simp only [splitLinesAux] at hx
    by_cases he : acc.isEmpty
    · simp [he] at hx
    · rw [if_neg he] at hx
      simp only [List.mem_singleton] at hx
      subst hx
      simp only [List.mem_reverse]
      exact hacc
  | cons c cs ih =>
    intro acc hacc x hx
    rw [splitLinesAux] at hx
    by_cases hc : c = '\n'
    · rw [if_pos hc] at hx
      rcases List.mem_cons.mp hx with rfl | hm
      · simp only [List.mem_reverse]
        exact hacc
      · exact ih (by simp) x hm
    · rw [if_neg hc] at hx
      exact ih (by
        intro hm
        rcases List.mem_cons.mp hm with hh | hh
        · exact hc hh.symm
        · exact hacc hh) x hx

theorem mem_splitLines_no_nl (s : Str) : ∀ x ∈ splitLines s, '\n' ∉ x :=
  mem_splitLinesAux_no_nl (by simp)

theorem splitLines_joinNl_length (xs : List Str) (h : ∀ x ∈ xs, '\n' ∉ x) :
    (splitLines (joinNl xs)).length ≤ xs.length := by
  induction xs with
  | nil => simp [joinNl, splitLines, splitLinesAux, List.intercalate]
  | cons a t ih =>
    cases t with
    | nil =>
      have ha := h a (by simp)
      show (splitLines (joinNl [a])).length ≤ 1
      have hj : joinNl [a] = a := by simp [joinNl, List.intercalate]
      rw [hj]
      unfold splitLines
      rw [splitLinesAux_no_nl ha []]
      by_cases he : a = [] <;> simp [he]
    | cons b t2 =>
      have hj : joinNl (a :: b :: t2) = a ++ '\n' :: joinNl (b :: t2) := rfl
      show (splitLines (joinNl (a :: b :: t2))).length ≤ t2.length + 2
      rw [hj]
      unfold splitLines
      rw [splitLinesAux_sep (h a (by simp)) (joinNl (b :: t2)) []]
      have hr := ih (by intro x hx; exact h x (by simp [hx]))
      unfold splitLines at hr
      simp only [List.length_cons]
      have h2 : (b :: t2).length = t2.length + 1 := by simp
      rw [h2] at hr
      omega

theorem stderrOf_lines_le (msg : Str) : (splitLines (stderrOf msg)).length ≤ 5 := by
  unfold stderrOf
  cases hf : reFind (strL "[STDERR]\n") (fun r => some r) msg with
  | none => simp [splitLines, splitLinesAux]
  | some tail =>
    have hmem : ∀ x ∈ (splitLines (pyStrip tail)).take 5, '\n' ∉ x := by
      intro x hx
      exact mem_splitLines_no_nl (pyStrip tail) x (List.take_subset 5 _ hx)
    have h1 := splitLines_joinNl_length _ hmem
    have h2 : ((splitLines (pyStrip tail)).take 5).length ≤ 5 := by
      rw [List.length_take]
      omega
    show (splitLines (joinNl ((splitLines (pyStrip tail)).take 5))).length ≤ 5
    omega

theorem statusTok_word (c : Char) (tok rest : Str)
    (hw : ∀ x ∈ c :: tok, isWordC x = true) :
    statusTok (' ' :: ((c :: tok) ++ '\n' :: rest)) = some (c :: tok) := by
  unfold statusTok
  have hd : ((' ' :: ((c :: tok) ++ '\n' :: rest)).dropWhile isPyWs) =
      (c :: tok) ++ '\n' :: rest := by
    rw [List.dropWhile_cons]
    rw [if_pos (by decide)]
    rw [List.cons_append, List.dropWhile_cons]
    rw [if_neg (by simp [wordC_not_pyWs (hw c (by simp))])]
  rw [hd]
  rw [takeWhile_append_not '\n' rest hw (by decide)]
  simp

theorem statusOf_head (c : Char) (tok rest : Str)
    (hw : ∀ x ∈ c :: tok, isWordC x = true) :
    statusOf (strL "Status:" ++ (' ' :: ((c :: tok) ++ '\n' :: rest))) = pyLower (c :: tok) := by
  unfold statusOf
  have he : strL "Status:" = 'S' :: strL "tatus:" := rfl
  rw [he]
  rw [reFind_at_head 'S' (strL "tatus:") _ statusTok (c :: tok) (statusTok_word c tok rest hw)]

theorem exitTok_digits (n : Nat) (rest : Str) :
    exitTok (' ' :: (natDigits n ++ '\n' :: rest)) = some n := by
  unfold exitTok
  obtain ⟨d, ds, hd⟩ : ∃ d ds, natDigits n = d :: ds := by
    cases hh : natDigits n with
    | nil => exact absurd hh (natDigits_ne_nil n)
    | cons d ds => exact ⟨d, ds, rfl⟩
  have hdd : isDigitC d = true := natDigits_digits n d (by rw [hd]; simp)
  have hdw : ((' ' :: (natDigits n ++ '\n' :: rest)).dropWhile isPyWs) =
      natDigits n ++ '\n' :: rest := by
    rw [List.dropWhile_cons, if_pos (by decide), hd, List.cons_append, List.dropWhile_cons]
    rw [if_neg (by simp [digitC_not_pyWs hdd])]
  rw [hdw]
  rw [takeWhile_append_not '\n' rest (natDigits_digits n) (by decide)]
  have hne : (natDigits n).isEmpty = false := by
    rw [hd]
    rfl
  show (if (natDigits n).isEmpty = true then none
    else some ((natDigits n).foldl (fun a c => a * 10 + digitVal c) 0)) = some n
  rw [hne]
  simp only [Bool.false_eq_true, if_false]
  rw [natDigits_foldl]
  simp

theorem exitOf_head (n : Nat) (rest : Str) :
    exitOf (strL "Exit code:" ++ (' ' :: (natDigits n ++ '\n' :: rest))) = some n := by
  unfold exitOf
  have he : strL "Exit code:" = 'E' :: strL "xit code:" := rfl
  rw [he]
  rw [reFind_at_head 'E' (strL "xit code:") _ exitTok n (exitTok_digits n rest)]

theorem statusOf_default {msg : Str} (h : occursIn (strL "Status:") msg = false) :
    statusOf msg = strL "unknown" := by
  unfold statusOf
  rw [reFind_none statusTok h]

theorem exitOf_default {msg : Str} (h : occursIn (strL "Exit code:") msg = false) :
    exitOf msg = none := by
  unfold exitOf
  exact reFind_none exitTok h

theorem stderrOf_default {msg : Str} (h : occursIn (strL "[STDERR]\n") msg = false) :
    stderrOf msg = [] := by
  unfold stderrOf
  rw [reFind_none _ h]

theorem pyReplaceAux_no_occ (p : Char) (ps rep : Str) :
    ∀ (fuel : Nat) (s : Str), occursIn (p :: ps) s = false →
      pyReplaceAux p ps rep fuel s = s := by
  intro fuel
  induction fuel with
  | zero => intro s _; cases s <;> rfl
  | succ f ih =>
    intro s hs
    cases s with
    | nil => rfl
    | cons c cs =>
      rw [occursIn_cons] at hs
      simp only [Bool.or_eq_false_iff] at hs
      rw [pyReplaceAux, if_neg (by simp [hs.1])]
      rw [ih cs hs.2]

theorem pyReplace_slash (rep : Str) :
    ∀ (a b : Str) (fuel : Nat), a.length + (b.length + 1) ≤ fuel → '/' ∉ a → '/' ∉ b →
      pyReplaceAux '/' [] rep fuel (a ++ '/' :: b) = a ++ (rep ++ b) := by
  intro a
  induction a with
  | nil =>
    intro b fuel hf _ hb
    cases fuel with
    | zero => omega
    | succ f =>
      rw [List.nil_append, pyReplaceAux, if_pos (by simp [List.isPrefixOf])]
      simp only [List.length_nil, List.drop_zero, List.nil_append]
      rw [pyReplaceAux_no_occ '/' [] rep f b (occursIn_false_of_head_not_mem hb)]
  | cons c a2 ih =>
    intro b fuel hf ha hb
    cases fuel with
    | zero => simp at hf
    | succ f =>
      have hc : c ≠ '/' := fun hh => ha (by simp [hh])
      rw [List.cons_append, pyReplaceAux, if_neg (by
        simp only [List.isPrefixOf, Bool.and_eq_true, beq_iff_eq]
        intro hh
        exact hc hh.1.symm)]
      rw [ih b f (by simp at hf ⊢; omega) (fun hh => ha (by simp [hh])) hb]
      simp

theorem pyReplace_uu :
    ∀ (a b : Str) (fuel : Nat), a.length + (b.length + 2) ≤ fuel →
      occursIn ['_', '_'] a = false → a.getLast? ≠ some '_' →
      occursIn ['_', '_'] b = false →
      pyReplaceAux '_' ['_'] ['/'] fuel (a ++ '_' :: '_' :: b) = a ++ '/' :: b := by
  intro a
  induction a with
  | nil =>
    intro b fuel hf _ _ hb
    cases fuel with
    | zero => omega
    | succ f =>
      rw [List.nil_append, pyReplaceAux, if_pos (by simp [List.isPrefixOf])]
      have hdrop : ('_' :: b).drop (['_'] : Str).length = b := by simp
      rw [hdrop]
      rw [pyReplaceAux_no_occ '_' ['_'] ['/'] f b hb]
      rfl
  | cons c a2 ih =>
    intro b fuel hf ha hlast hb
    cases fuel with
    | zero => simp at hf
    | succ f =>
      rw [occursIn_cons] at ha
      simp only [Bool.or_eq_false_iff] at ha
      by_cases hc : c = '_'
      · subst hc
        cases a2 with
        | nil =>
          exfalso
          apply hlast
          rfl
        | cons d a3 =>
          have hd : d ≠ '_' := by
            intro hh
            subst hh
            simp [List.isPrefixOf] at ha
          rw [List.cons_append, pyReplaceAux, if_neg (by
            simp only [List.cons_append, List.isPrefixOf, Bool.and_eq_true, beq_iff_eq]
            intro hh
            exact hd hh.2.1.symm)]
          rw [ih b f (by simp at hf ⊢; omega) ha.2 (by
            rw [List.getLast?_cons_cons] at hlast
            exact hlast) hb]
          simp
      · rw [List.cons_append, pyReplaceAux, if_neg (by
          simp only [List.isPrefixOf, Bool.and_eq_true, beq_iff_eq]
          intro hh
          exact hc hh.1.symm)]
        have hlast2 : a2.getLast? ≠ some '_' := by
          cases a2 with
          | nil => simp
          | cons d a3 =>
            rw [List.getLast?_cons_cons] at hlast
            exact hlast
        rw [ih b f (by simp at hf ⊢; omega) ha.2 hlast2 hb]
        simp

theorem mem_split_first {c : Char} {s : Str} (h : c ∈ s) :
    ∃ a b, s = a ++ c :: b ∧ c ∉ a := by
  induction s with
  | nil => simp at h
  | cons d t ih =>
    by_cases hd : d = c
    · exact ⟨[], t, by rw [hd]; rfl, by simp⟩
    · have hm : c ∈ t := by
        rcases List.mem_cons.mp h with hh | hh
        · exact absurd hh.symm hd
        · exact hh
      obtain ⟨a, b, rfl, hna⟩ := ih hm
      refine ⟨d :: a, b, rfl, ?_⟩
      intro hh
      rcases List.mem_cons.mp hh with hh2 | hh2
      · exact hd hh2.symm
      · exact hna hh2

theorem getLast?_split {x : Char} {l : Str} (h : l.getLast? = some x) :
    ∃ l2, l = l2 ++ [x] := by
  induction l with
  | nil => simp at h
  | cons d t ih =>
    cases t with
    | nil =>
      simp only [List.getLast?_singleton, Option.some.injEq] at h
      exact ⟨[], by rw [h]; rfl⟩
    | cons e t2 =>
      rw [List.getLast?_cons_cons] at h
      obtain ⟨l2, hl⟩ := ih h
      exact ⟨d :: l2, by rw [List.cons_append, ← hl]⟩

theorem find?_split {α : Type} (p : α → Bool) :
    ∀ (l : List α) (a : α), l.find? p = some a →
      ∃ s t, l = s ++ a :: t ∧ p a = true ∧ ∀ x ∈ s, p x = false := by
  intro l
  induction l with
  | nil => intro a h; simp [List.find?] at h
  | cons x xs ih =>
    intro a h
    cases hp : p x with
    | true =>
      rw [List.find?_cons_of_pos _ hp] at h
      injection h with h2
      subst h2
      exact ⟨[], xs, rfl, hp, by simp⟩
    | false =>
      rw [List.find?_cons_of_neg _ (by simp [hp])] at h
      obtain ⟨s, t, rfl, hpa, hs⟩ := ih a h
      refine ⟨x :: s, t, rfl, hpa, ?_⟩
      intro y hy
      rcases List.mem_cons.mp hy with rfl | hy2
      · exact hp
      · exact hs y hy2

theorem heuristicFields_isObj (s : Str) : (heuristicFields s).isObj = true := rfl

theorem resolveTail_shape (u : Str) :
    ∀ r : JsonVal, r = (match jsonLoads u with
      | some j => j
      | none =>
        match jsonLoads (backtickFix u) with
        | some j => j
        | none =>
          match braceSpan u with
          | some b =>
            match jsonLoads b with
            | some j => j
            | none => heuristicFields u
          | none => heuristicFields u) →
    r.isObj = true ∨ ∃ w : Str, jsonLoads w = some r := by
  intro r hr
  cases h1 : jsonLoads u with
  | some j =>
    simp only [h1] at hr
    exact Or.inr ⟨u, by rw [h1, hr]⟩
  | none =>
    simp only [h1] at hr
    cases h2 : jsonLoads (backtickFix u) with
    | some j =>
      simp only [h2] at hr
      exact Or.inr ⟨backtickFix u, by rw [h2, hr]⟩
    | none =>
      simp only [h2] at hr
      cases h3 : braceSpan u with
      | some b =>
        simp only [h3] at hr
        cases h4 : jsonLoads b with
        | some j =>
          simp only [h4] at hr
          exact Or.inr ⟨b, by rw [h4, hr]⟩
        | none =>
          simp only [h4] at hr
          rw [hr]
          exact Or.inl (heuristicFields_isObj u)
      | none =>
        simp only [h3] at hr
        rw [hr]
        exact Or.inl (heuristicFields_isObj u)

theorem resolveSteps_shape (t : Str) :
    (resolveSteps t).isObj = true ∨ ∃ u : Str, jsonLoads u = some (resolveSteps t) :=
  resolveTail_shape
    (match markerStrip tqMark (match markerStrip fenceMark t with
        | some s => s
        | none => t) with
      | some s => s
      | none =>
        match markerStrip fenceMark t with
        | some s => s
        | none => t)
    (resolveSteps t) rfl

/-- C1: amended resolver output contract: on every input, string or not,
the resolver returns normally (it is a total function in this model),
and its result is either a field mapping (in particular the empty
mapping that the heuristic pass returns on total failure) or the value
that a successful direct JSON parse of one of the cascade texts
produced; the counterexample shows the original claim's stronger
promise, that the result is always a mapping, fails on a bare scalar. -/
theorem C1_resolver_total (x : PyVal) :
    (parseJsonOutput x).isObj = true ∨
      ∃ u : Str, jsonLoads u = some (parseJsonOutput x) := by
  cases x with
  | pnone => exact Or.inl rfl
  | pstr s => exact resolveSteps_shape s
  | pbool b => exact resolveSteps_shape (coerceText (.pbool b))
  | pint n => exact resolveSteps_shape (coerceText (.pint n))
  | plist l => exact resolveSteps_shape (coerceText (.plist l))
  | pdict l => exact resolveSteps_shape (coerceText (.pdict l))

theorem C1_cex_nonmapping :
    parseJsonOutput (.pstr (strL "3")) = .jint 3 ∧
      JsonVal.isObj (.jint 3) = false := ⟨rfl, rfl⟩

theorem fence_eq : fenceMark = btC :: [btC, btC] := rfl

theorem tq_eq : tqMark = '"' :: ['"', '"'] := rfl

/-- C6: amended idempotence: re-resolving the serialization of a
well-formed object value gives that value back, provided the serialized
text carries no fence or triple-quote marker (the counterexample shows
the unconditional claim fails when it does). -/
theorem C6_idempotent_clean (v : JsonVal)
    (hw : wfB v = true)
    (hb : occursIn fenceMark (jsonDumps v) = false)
    (hq : occursIn tqMark (jsonDumps v) = false) :
    parseJsonOutput (.pstr (jsonDumps v)) = v :=
  resolveSteps_clean hb hq (jsonLoads_dumps v hw)

theorem C6_witness :
    wfB (.jobj [(strL "a", .jint 1)]) = true ∧
    occursIn fenceMark (jsonDumps (.jobj [(strL "a", .jint 1)])) = false ∧
    occursIn tqMark (jsonDumps (.jobj [(strL "a", .jint 1)])) = false ∧
    parseJsonOutput (.pstr (jsonDumps (.jobj [(strL "a", .jint 1)]))) =
      .jobj [(strL "a", .jint 1)] :=
  ⟨by decide, by decide, by decide,
    C6_idempotent_clean (.jobj [(strL "a", .jint 1)]) (by decide) (by decide) (by decide)⟩

/-- C5: amended wrapped-object extraction: a well-formed JSON object
text is recovered by the resolver whether it stands bare, inside a
triple-backtick fence or inside a triple-quote block, provided the
object text itself contains no backtick and no triple-quote marker and
carries no surrounding whitespace; the counterexample shows the
unconditional claim fails when the object holds a backtick fence inside
a string value. -/
theorem C5_wrapped_object (t : Str) (v : JsonVal)
    (hv : v.isObj = true)
    (hl : jsonLoads t = some v)
    (hs : pyStrip t = t)
    (hb : occursIn [btC] t = false)
    (hq : occursIn tqMark t = false) :
    resolveSteps t = v ∧
    resolveSteps (fenceMark ++ ('\n' :: (t ++ '\n' :: fenceMark))) = v ∧
    resolveSteps (tqMark ++ ('\n' :: (t ++ '\n' :: tqMark))) = v := by
  have hbt : btC ∉ t := not_mem_of_occursIn_single hb
  have hft : occursIn fenceMark t = false := by
    rw [fence_eq]
    exact occursIn_false_of_head_not_mem hbt
  refine ⟨resolveSteps_clean hft hq hl, ?_, ?_⟩
  · have hwrap : markerStrip fenceMark (fenceMark ++ ('\n' :: (t ++ '\n' :: fenceMark))) =
        some (pyStrip t) := by
      rw [fence_eq]
      apply markerStrip_wrapped
      · decide
      · apply occursIn_false_of_head_not_mem
        intro hm
        simp only [List.cons_append, List.mem_cons, List.mem_append, List.mem_singleton] at hm
        rcases hm with h | h | h
        · exact absurd h (by decide)
        · exact hbt h
        · exact absurd h (by decide)
    unfold resolveSteps
    simp only [hwrap, hs, markerStrip_none hq, hl]
  · have hnw : btC ∉ tqMark ++ ('\n' :: (t ++ '\n' :: tqMark)) := by
      intro hm
      simp only [tq_eq, List.cons_append, List.mem_cons, List.mem_append,
        List.mem_singleton] at hm
      rcases hm with h | h | h | h | h | h | h | h
      all_goals first
        | exact absurd h (by decide)
        | exact hbt h
    have hfw : occursIn fenceMark (tqMark ++ ('\n' :: (t ++ '\n' :: tqMark))) = false := by
      rw [fence_eq]
      exact occursIn_false_of_head_not_mem hnw
    have hoccw : occursIn ('"' :: ['"', '"']) (('\n' :: t) ++ ['\n']) = false := by
      have hnl : '\n' ∉ ('"' :: ['"', '"'] : Str) := by decide
      have hne : ('"' :: ['"', '"'] : Str) ≠ [] := by decide
      have e1 := occursIn_sep_split hnl hne [] (t ++ ['\n'])
      have e2 := occursIn_sep_split hnl hne t []
      simp only [List.nil_append] at e1
      have hsh : ('\n' :: t) ++ ['\n'] = '\n' :: (t ++ ['\n']) := by simp
      rw [hsh, e1]
      have hsh2 : t ++ ['\n'] = t ++ '\n' :: [] := rfl
      rw [hsh2, e2]
      rw [show occursIn ('"' :: ['"', '"']) t = false from by rw [← tq_eq]; exact hq]
      rfl
    have hwrap : markerStrip tqMark (tqMark ++ ('\n' :: (t ++ '\n' :: tqMark))) =
        some (pyStrip t) := by
      rw [tq_eq]
      exact markerStrip_wrapped '"' ['"', '"'] t (by decide) hoccw
    unfold resolveSteps
    simp only [markerStrip_none hfw, hwrap, hs, hl]

theorem C5_witness :
    JsonVal.isObj (.jobj [(strL "ok", .jbool true)]) = true ∧
    jsonLoads (strL "\x7b\"ok\": true\x7d") = some (.jobj [(strL "ok", .jbool true)]) ∧
    pyStrip (strL "\x7b\"ok\": true\x7d") = strL "\x7b\"ok\": true\x7d" ∧
    occursIn [btC] (strL "\x7b\"ok\": true\x7d") = false ∧
    occursIn tqMark (strL "\x7b\"ok\": true\x7d") = false ∧
    (resolveSteps (strL "\x7b\"ok\": true\x7d") = .jobj [(strL "ok", .jbool true)] ∧
     resolveSteps (fenceMark ++ ('\n' :: (strL "\x7b\"ok\": true\x7d" ++ '\n' :: fenceMark))) =
       .jobj [(strL "ok", .jbool true)] ∧
     resolveSteps (tqMark ++ ('\n' :: (strL "\x7b\"ok\": true\x7d" ++ '\n' :: tqMark))) =
       .jobj [(strL "ok", .jbool true)]) :=
  ⟨by decide, by decide, by decide, by decide, by decide,
    C5_wrapped_object (strL "\x7b\"ok\": true\x7d") (.jobj [(strL "ok", .jbool true)])
      (by decide) (by decide) (by decide) (by decide) (by decide)⟩

theorem C5_cex_backtick_fence :
    jsonLoads (obrC :: (strL "\"a\": \"" ++
        ([btC, btC, btC, 'x', btC, btC, btC] ++ ('"' :: [cbrC])))) =
      some (.jobj [(strL "a", .jstr [btC, btC, btC, 'x', btC, btC, btC])]) ∧
    ¬ resolveSteps (obrC :: (strL "\"a\": \"" ++
        ([btC, btC, btC, 'x', btC, btC, btC] ++ ('"' :: [cbrC])))) =
      .jobj [(strL "a", .jstr [btC, btC, btC, 'x', btC, btC, btC])] :=
  ⟨by decide, by decide⟩

theorem C6_cex_not_idempotent :
    ¬ parseJsonOutput (.pstr (jsonDumps (parseJsonOutput
        (.pstr (strL "\x7b\"a\": \"\\u0060\\u0060\\u0060x\\u0060\\u0060\\u0060\"\x7d"))))) =
      parseJsonOutput
        (.pstr (strL "\x7b\"a\": \"\\u0060\\u0060\\u0060x\\u0060\\u0060\\u0060\"\x7d")) := by
  decide

/-- C7: amended summarizer contract: the status token after a Status
label is extracted case-insensitively and defaults to unknown, a
nonnegative digit run after an Exit code label is extracted (the source
pattern has no sign, so the negative exit code of the agent's own
synthetic failure report is not captured, see the counterexample), the
error head is at most five lines after the STDERR marker, and each field
degrades to its permissive default when its label is absent. -/
theorem C7_summarizer_fields :
    (∀ msg : Str, occursIn (strL "Status:") msg = false →
      (summarizeToolOutput msg).status = strL "unknown") ∧
    (∀ msg : Str, occursIn (strL "Exit code:") msg = false →
      (summarizeToolOutput msg).exitCode = none) ∧
    (∀ msg : Str, occursIn (strL "[STDERR]\n") msg = false →
      (summarizeToolOutput msg).errHead = []) ∧
    (∀ (c : Char) (tok rest : Str), (∀ x ∈ c :: tok, isWordC x = true) →
      (summarizeToolOutput (strL "Status:" ++ (' ' :: ((c :: tok) ++ '\n' :: rest)))).status =
        pyLower (c :: tok)) ∧
    (∀ (n : Nat) (rest : Str),
      (summarizeToolOutput (strL "Exit code:" ++ (' ' :: (natDigits n ++ '\n' :: rest)))).exitCode =
        some n) ∧
    (∀ msg : Str, (splitLines ((summarizeToolOutput msg).errHead)).length ≤ 5) := by
  refine ⟨?_, ?_, ?_, ?_, ?_, ?_⟩
  · intro msg h
    exact statusOf_default h
  · intro msg h
    exact exitOf_default h
  · intro msg h
    exact stderrOf_default h
  · intro c tok rest hw
    exact statusOf_head c tok rest hw
  · intro n rest
    exact exitOf_head n rest
  · intro msg
    exact stderrOf_lines_le msg

theorem C7_witness :
    (occursIn (strL "Status:") (strL "no labels here") = false ∧
      (summarizeToolOutput (strL "no labels here")).status = strL "unknown") ∧
    (occursIn (strL "Exit code:") (strL "no labels here") = false ∧
      (summarizeToolOutput (strL "no labels here")).exitCode = none) ∧
    ((∀ x ∈ 'S' :: strL "uccess", isWordC x = true) ∧
      (summarizeToolOutput (strL "Status:" ++
        (' ' :: (('S' :: strL "uccess") ++ '\n' :: strL "Exit code: 0")))).status =
        pyLower ('S' :: strL "uccess")) ∧
    (summarizeToolOutput (strL "Exit code:" ++
      (' ' :: (natDigits 7 ++ '\n' :: [])))).exitCode = some 7 ∧
    (splitLines ((summarizeToolOutput
      (strL "Status: failure\n[STDERR]\na\nb\nc\nd\ne\nf\ng")).errHead)).length ≤ 5 :=
  ⟨⟨by decide, C7_summarizer_fields.1 (strL "no labels here") (by decide)⟩,
   ⟨by decide, C7_summarizer_fields.2.1 (strL "no labels here") (by decide)⟩,
   ⟨by decide, C7_summarizer_fields.2.2.2.1 'S' (strL "uccess") (strL "Exit code: 0") (by decide)⟩,
   C7_summarizer_fields.2.2.2.2.1 7 [],
   C7_summarizer_fields.2.2.2.2.2 (strL "Status: failure\n[STDERR]\na\nb\nc\nd\ne\nf\ng")⟩

theorem C7_cex_negative_exit :
    occursIn (strL "Exit code:") (strL "Status: failure\nExit code: -1\n[STDERR]\nboom") = true ∧
    summarizeToolOutput (strL "Status: failure\nExit code: -1\n[STDERR]\nboom") =
      ⟨strL "failure", none, strL "boom"⟩ :=
  ⟨by decide, by decide⟩

/-- C8: amended codec round trip: decoding inverts encoding for names
with at most one slash whose text contains no double underscore and no
underscore-slash pair; the counterexample shows the spec's version (at
most one separator, no other condition) fails on a name that already
contains a double underscore. -/
theorem C8_codec_roundtrip (name : Str)
    (h1 : name.count '/' ≤ 1)
    (h2 : occursIn ['_', '_'] name = false)
    (h3 : occursIn ['_', '/'] name = false) :
    decodeToolName (encodeToolName name) = name := by
  by_cases hm : '/' ∈ name
  · obtain ⟨a, b, hab, hna⟩ := mem_split_first hm
    subst hab
    have hnb : '/' ∉ b := by
      rw [List.count_append, List.count_cons_self] at h1
      have hzero : b.count '/' = 0 := by omega
      exact (List.count_eq_zero).mp hzero
    have hsplit := occursIn_sep_split (show '/' ∉ (['_', '_'] : Str) by decide)
      (show (['_', '_'] : Str) ≠ [] by decide) a b
    rw [h2] at hsplit
    have hsplit2 := hsplit.symm
    simp only [Bool.or_eq_false_iff] at hsplit2
    have hlast : a.getLast? ≠ some '_' := by
      intro hgl
      obtain ⟨a2, rfl⟩ := getLast?_split hgl
      have hsh : (a2 ++ ['_']) ++ '/' :: b = a2 ++ '_' :: '/' :: b := by simp
      rw [hsh] at h3
      have hpre : (['_', '/'] : Str).isPrefixOf ((a2 ++ '_' :: '/' :: b).drop a2.length) = true := by
        rw [List.drop_left]
        simp [List.isPrefixOf]
      rw [occursIn_of_prefixAt a2.length hpre] at h3
      exact Bool.true_eq_false.mp h3
    have henc : encodeToolName (a ++ '/' :: b) = a ++ '_' :: '_' :: b := by
      unfold encodeToolName
      rw [if_pos hm]
      rw [pyReplace_slash (strL "__") a b (a ++ '/' :: b).length (by simp) hna hnb]
      rfl
    rw [henc]
    unfold decodeToolName
    rw [pyReplace_uu a b (a ++ '_' :: '_' :: b).length (by simp)
      hsplit2.1 hlast hsplit2.2]
  · have henc : encodeToolName name = name := by
      unfold encodeToolName
      rw [if_neg hm]
    rw [henc]
    unfold decodeToolName
    exact pyReplaceAux_no_occ '_' ['_'] ['/'] name.length name h2

theorem C8_witness :
    (strL "tools/run_tests").count '/' ≤ 1 ∧
    occursIn ['_', '_'] (strL "tools/run_tests") = false ∧
    occursIn ['_', '/'] (strL "tools/run_tests") = false ∧
    decodeToolName (encodeToolName (strL "tools/run_tests")) = strL "tools/run_tests" :=
  ⟨by decide, by decide, by decide,
    C8_codec_roundtrip (strL "tools/run_tests") (by decide) (by decide) (by decide)⟩

theorem C8_cex_double_underscore :
    (strL "a__b").count '/' ≤ 1 ∧
    decodeToolName (encodeToolName (strL "a__b")) = strL "a/b" ∧
    ¬ strL "a/b" = strL "a__b" :=
  ⟨by decide, by decide, by decide⟩

/-- C9: amended decoder contract: over the attribute-shaped transport the
decoder never raises, a call is dropped exactly when its resolved name or
arguments attribute is missing, and a response with no tool call yields
the empty list; the counterexample shows the other decoding entry point,
parse tool calls, raises on unparsable messages and missing keys. -/
theorem C9_decoder_drops_silently :
    decodeLitellm (.modelResp ⟨none, none⟩) = [] ∧
    decodeLitellm .other = [] ∧
    (∀ (l : List LToolCall) (c : Option Str), l.isEmpty = false →
      decodeLitellm (.modelResp ⟨some l, c⟩) = l.filterMap decodeOneAttr) ∧
    (∀ tc : LToolCall, decodeOneAttr tc = none ↔
      ((match tc.function with | some f => f.name | none => tc.name) = none ∨
       (match tc.function with | some f => f.arguments | none => tc.arguments) = none)) ∧
    (∀ (l : List LToolCall) (c : Option Str), l.isEmpty = false →
      (∀ tc ∈ l, decodeOneAttr tc = none) →
      decodeLitellm (.modelResp ⟨some l, c⟩) = []) := by
  have h3 : ∀ (l : List LToolCall) (c : Option Str), l.isEmpty = false →
      decodeLitellm (.modelResp ⟨some l, c⟩) = l.filterMap decodeOneAttr := by
    intro l c h
    unfold decodeLitellm
    simp [h]
  refine ⟨rfl, rfl, h3, ?_, ?_⟩
  · intro tc
    obtain ⟨f, n, a, i⟩ := tc
    cases f with
    | none =>
      cases n with
      | none => simp [decodeOneAttr]
      | some nv =>
        cases a with
        | none => simp [decodeOneAttr]
        | some av => simp [decodeOneAttr]
    | some fv =>
      obtain ⟨fn, fa⟩ := fv
      cases fn with
      | none => simp [decodeOneAttr]
      | some nv =>
        cases fa with
        | none => simp [decodeOneAttr]
        | some av => simp [decodeOneAttr]
  · intro l c h hall
    rw [h3 l c h]
    exact List.filterMap_eq_nil_iff.mpr hall

theorem C9_witness :
    (([⟨none, none, some (.rawArgs []), none⟩] : List LToolCall).isEmpty = false ∧
      decodeLitellm (.modelResp ⟨some [⟨none, none, some (.rawArgs []), none⟩], none⟩) =
        ([⟨none, none, some (.rawArgs []), none⟩] : List LToolCall).filterMap decodeOneAttr) ∧
    (decodeOneAttr ⟨none, none, some (.rawArgs []), none⟩ = none ↔
      ((match (⟨none, none, some (.rawArgs []), none⟩ : LToolCall).function with
        | some f => f.name
        | none => (⟨none, none, some (.rawArgs []), none⟩ : LToolCall).name) = none ∨
       (match (⟨none, none, some (.rawArgs []), none⟩ : LToolCall).function with
        | some f => f.arguments
        | none => (⟨none, none, some (.rawArgs []), none⟩ : LToolCall).arguments) = none)) ∧
    ((∀ tc ∈ ([⟨none, none, some (.rawArgs []), none⟩] : List LToolCall),
        decodeOneAttr tc = none) ∧
      decodeLitellm (.modelResp ⟨some [⟨none, none, some (.rawArgs []), none⟩], none⟩) = []) :=
  ⟨⟨by decide, C9_decoder_drops_silently.2.2.1 [⟨none, none, some (.rawArgs []), none⟩] none rfl⟩,
   C9_decoder_drops_silently.2.2.2.1 ⟨none, none, some (.rawArgs []), none⟩,
   ⟨by decide, C9_decoder_drops_silently.2.2.2.2 [⟨none, none, some (.rawArgs []), none⟩] none
     rfl (by decide)⟩⟩

theorem C9_cex_parse_tool_calls_raises :
    parseToolCalls (strL "not json") = .error .jsonDecodeError ∧
    parseToolCalls (strL "[\x7b\x7d]") = .error (.keyError (strL "name")) :=
  ⟨rfl, rfl⟩

/-- C10: when no line of the task input strips to a def header, the
tool-using run raises ValueError for every backend and tool oracle (so
before any call is consulted); otherwise the extracted header is the
first such line, stripped. -/
theorem C10_def_header :
    (∀ (oracle tool : Nat → Str) (maxSteps : Nat) (task : Str),
      (∀ l ∈ splitLines task, (strL "def ").isPrefixOf (pyStrip l) = false) →
      runToolAgent oracle tool maxSteps task = .error .valueError) ∧
    (∀ task : Str, ¬ extractDefHeader task = [] →
      ∃ pre l post, splitLines task = pre ++ l :: post ∧
        extractDefHeader task = pyStrip l ∧
        (strL "def ").isPrefixOf (pyStrip l) = true ∧
        ∀ l2 ∈ pre, (strL "def ").isPrefixOf (pyStrip l2) = false) := by
  constructor
  · intro oracle tool maxSteps task h
    have hnone : (splitLines task).find? (fun l => (strL "def ").isPrefixOf (pyStrip l)) =
        none := by
      rw [List.find?_eq_none]
      intro x hx
      rw [h x hx]
      simp
    have hdr : extractDefHeader task = [] := by
      unfold extractDefHeader
      rw [hnone]
    unfold runToolAgent
    rw [hdr]
    rfl
  · intro task h
    cases hf : (splitLines task).find? (fun l => (strL "def ").isPrefixOf (pyStrip l)) with
    | none =>
      exfalso
      apply h
      unfold extractDefHeader
      rw [hf]
    | some l =>
      obtain ⟨pre, post, hsp, hp, hpre⟩ := find?_split _ _ l hf
      refine ⟨pre, l, post, hsp, ?_, hp, hpre⟩
      unfold extractDefHeader
      rw [hf]

theorem C10_witness :
    ((∀ l ∈ splitLines (strL "x = 1\nprint(x)"),
        (strL "def ").isPrefixOf (pyStrip l) = false) ∧
      runToolAgent (fun _ => []) (fun _ => []) 3 (strL "x = 1\nprint(x)") =
        .error .valueError) ∧
    (¬ extractDefHeader (strL "# helper\n  def f(x):\n  pass") = [] ∧
      ∃ pre l post, splitLines (strL "# helper\n  def f(x):\n  pass") = pre ++ l :: post ∧
        extractDefHeader (strL "# helper\n  def f(x):\n  pass") = pyStrip l ∧
        (strL "def ").isPrefixOf (pyStrip l) = true ∧
        ∀ l2 ∈ pre, (strL "def ").isPrefixOf (pyStrip l2) = false) :=
  ⟨⟨by decide, C10_def_header.1 (fun _ => []) (fun _ => []) 3 (strL "x = 1\nprint(x)")
      (by decide)⟩,
   ⟨by decide, C10_def_header.2 (strL "# helper\n  def f(x):\n  pass") (by decide)⟩⟩

/-- C2: the loops run at most max steps rounds and stop early exactly on
the first successful tool round (tool variant) or the first round with a
true finish flag and a nonempty candidate (tool-free variant); stopping
at round r leaves exactly r plus one records, and the result depends
only on the oracle answers up to the stopping round. -/
theorem C2_loop_stops_on_success :
    (∀ (oracle tool : Nat → Str) (maxSteps : Nat) (task : Str),
      (extractDefHeader task).isEmpty = false →
      ∃ out, runToolAgent oracle tool maxSteps task = .ok out ∧
        out.2.1.length ≤ maxSteps) ∧
    (∀ (oracle tool : Nat → Str) (maxSteps r : Nat) (task : Str),
      (extractDefHeader task).isEmpty = false →
      r < maxSteps →
      (∀ j, j < r → ¬ (summarizeToolOutput (tool j)).status = strL "success") →
      (summarizeToolOutput (tool r)).status = strL "success" →
      ∃ out, runToolAgent oracle tool maxSteps task = .ok out ∧
        out.2.1.length = r + 1 ∧
        (∀ oracle2 tool2 : Nat → Str,
          (∀ j, j ≤ r → oracle2 j = oracle j) → (∀ j, j ≤ r → tool2 j = tool j) →
          runToolAgent oracle2 tool2 maxSteps task = runToolAgent oracle tool maxSteps task)) ∧
    (∀ (oracle : Nat → Str) (maxSteps : Nat),
      ((runPlainAgent oracle maxSteps).2.1).length ≤ maxSteps) ∧
    (∀ (oracle : Nat → Str) (maxSteps r : Nat),
      r < maxSteps →
      (∀ j, j < r → ¬ ((parsePlainReact (oracle j)).finish = true ∧
        ¬ (parsePlainReact (oracle j)).candidate.isEmpty = true)) →
      ((parsePlainReact (oracle r)).finish = true ∧
        ¬ (parsePlainReact (oracle r)).candidate.isEmpty = true) →
      ((runPlainAgent oracle maxSteps).2.1).length = r + 1) := by
  refine ⟨?_, ?_, ?_, ?_⟩
  · intro oracle tool maxSteps task htask
    obtain ⟨n, hn, heq, _, _⟩ := runToolAux_master oracle tool maxSteps 0 [] [] []
    refine ⟨runToolAux oracle tool maxSteps 0 [] [] [], ?_, ?_⟩
    · unfold runToolAgent
      rw [if_neg (by simp [htask])]
    · rw [heq]
      simp [hn]
  · intro oracle tool maxSteps r task htask hr hbef hsucc
    obtain ⟨n, hn, heq, hc1, hc2⟩ := runToolAux_master oracle tool maxSteps 0 [] [] []
    have hnr : n = r + 1 := by
      by_contra hne
      rcases Nat.lt_or_ge n (r + 1) with hlt | hge
      · have hnm : n < maxSteps := by omega
        obtain ⟨hpos, hs⟩ := hc2 hnm
        have hn1 : n - 1 < r := by omega
        have := hbef (n - 1) hn1
        rw [show (0 : Nat) + n - 1 = n - 1 by omega] at hs
        exact this hs
      · have : r + 1 < n := by omega
        have := hc1 r this
        rw [Nat.zero_add] at this
        exact this hsucc
    refine ⟨runToolAux oracle tool maxSteps 0 [] [] [], ?_, ?_, ?_⟩
    · unfold runToolAgent
      rw [if_neg (by simp [htask])]
    · rw [heq]
      simp [hnr]
    · intro oracle2 tool2 hao hat
      unfold runToolAgent
      rw [if_neg (by simp [htask]), if_neg (by simp [htask])]
      have := runToolAux_agree oracle tool oracle2 tool2 maxSteps 0 r [] [] []
        hr
        (by intro j hj; rw [Nat.zero_add]; exact hbef j hj)
        (by rw [Nat.zero_add]; exact hsucc)
        (by intro j hj; rw [Nat.zero_add]; exact hao j hj)
        (by intro j hj; rw [Nat.zero_add]; exact hat j hj)
      rw [this]
  · intro oracle maxSteps
    obtain ⟨n, hn, heq, _, _⟩ := runPlainAux_master oracle maxSteps 0 [] [] []
    show ((runPlainAux oracle maxSteps 0 [] [] []).2.1).length ≤ maxSteps
    rw [heq]
    simp [hn]
  · intro oracle maxSteps r hr hbef hsucc
    obtain ⟨n, hn, heq, hc1, hc2⟩ := runPlainAux_master oracle maxSteps 0 [] [] []
    have hnr : n = r + 1 := by
      by_contra hne
      rcases Nat.lt_or_ge n (r + 1) with hlt | hge
      · have hnm : n < maxSteps := by omega
        obtain ⟨hpos, hs⟩ := hc2 hnm
        have hn1 : n - 1 < r := by omega
        have := hbef (n - 1) hn1
        rw [show (0 : Nat) + n - 1 = n - 1 by omega] at hs
        exact this hs
      · have hlt2 : r + 1 < n := by omega
        have := hc1 r hlt2
        rw [Nat.zero_add] at this
        exact this hsucc
    show ((runPlainAux oracle maxSteps 0 [] [] []).2.1).length = r + 1
    rw [heq]
    simp [hnr]

theorem C2_witness :
    ((extractDefHeader (strL "def f(x):")).isEmpty = false ∧ (2 : Nat) < 5 ∧
      (summarizeToolOutput ((fun i => if i = 2 then strL "Status: success"
        else strL "Status: failure") (2 : Nat))).status = strL "success") ∧
    (∃ out, runToolAgent (fun _ => [])
        (fun i => if i = 2 then strL "Status: success" else strL "Status: failure")
        5 (strL "def f(x):") = .ok out ∧
      out.2.1.length = 2 + 1 ∧
      (∀ oracle2 tool2 : Nat → Str,
        (∀ j, j ≤ 2 → oracle2 j = (fun _ => ([] : Str)) j) →
        (∀ j, j ≤ 2 → tool2 j = (fun i => if i = 2 then strL "Status: success"
          else strL "Status: failure") j) →
        runToolAgent oracle2 tool2 5 (strL "def f(x):") =
          runToolAgent (fun _ => [])
            (fun i => if i = 2 then strL "Status: success" else strL "Status: failure")
            5 (strL "def f(x):"))) :=
  ⟨⟨by decide, by decide, by decide⟩,
   C2_loop_stops_on_success.2.1 (fun _ => [])
     (fun i => if i = 2 then strL "Status: success" else strL "Status: failure")
     5 2 (strL "def f(x):") (by decide) (by decide)
     (by
       intro j hj
       match j, hj with
       | 0, _ => decide
       | 1, _ => decide)
     (by decide)⟩

/-- C3: amended degradation contract: in the tool-free plain-text
variant no parse failure escapes: when no round parses a finishing
nonempty candidate the loop exhausts all rounds and ends holding the
last parsed candidate (the empty string when every parse came back
empty); the counterexample shows the structured-schema variant instead
lets a KeyError escape on unstructured oracle output. -/
theorem C3_plain_degrades (oracle : Nat → Str) (maxSteps : Nat)
    (h : ∀ i, i < maxSteps → ¬ ((parsePlainReact (oracle i)).finish = true ∧
      ¬ (parsePlainReact (oracle i)).candidate.isEmpty = true)) :
    ((runPlainAgent oracle maxSteps).2.1).length = maxSteps ∧
    (0 < maxSteps →
      (runPlainAgent oracle maxSteps).1 =
        (parsePlainReact (oracle (maxSteps - 1))).candidate) ∧
    (maxSteps = 0 → (runPlainAgent oracle maxSteps).1 = []) := by
  obtain ⟨n, hn, heq, hc1, hc2⟩ := runPlainAux_master oracle maxSteps 0 [] [] []
  have hnm : n = maxSteps := by
    by_contra hne
    have hlt : n < maxSteps := by omega
    obtain ⟨hpos, hs⟩ := hc2 hlt
    have hnn := h (n - 1) (by omega)
    rw [show n - 1 = 0 + n - 1 by omega] at hnn
    exact hnn hs
  rw [hnm] at heq
  refine ⟨?_, ?_, ?_⟩
  · show ((runPlainAux oracle maxSteps 0 [] [] []).2.1).length = _
    rw [heq]
    simp
  · intro hpos
    show (runPlainAux oracle maxSteps 0 [] [] []).1 = _
    rw [heq]
    simp only [if_neg (by omega : ¬ maxSteps = 0)]
    rw [show (0 : Nat) + maxSteps - 1 = maxSteps - 1 by omega]
  · intro h0
    subst h0
    show (runPlainAux oracle 0 0 [] [] []).1 = _
    rw [heq]
    simp

theorem C3_witness :
    (∀ i, i < 2 → ¬ ((parsePlainReact ((fun _ => strL "just noise") i)).finish = true ∧
      ¬ (parsePlainReact ((fun _ => strL "just noise") i)).candidate.isEmpty = true)) ∧
    (((runPlainAgent (fun _ => strL "just noise") 2).2.1).length = 2 ∧
      (0 < 2 →
        (runPlainAgent (fun _ => strL "just noise") 2).1 =
          (parsePlainReact ((fun _ => strL "just noise") (2 - 1))).candidate) ∧
      (2 = 0 → (runPlainAgent (fun _ => strL "just noise") 2).1 = [])) :=
  ⟨by
    intro i _
    exact (by decide : ¬ ((parsePlainReact (strL "just noise")).finish = true ∧
      ¬ (parsePlainReact (strL "just noise")).candidate.isEmpty = true)),
   C3_plain_degrades (fun _ => strL "just noise") 2 (by
    intro i _
    exact (by decide : ¬ ((parsePlainReact (strL "just noise")).finish = true ∧
      ¬ (parsePlainReact (strL "just noise")).candidate.isEmpty = true)))⟩

theorem C3_cex_json_variant_raises :
    runJsonAgent (fun _ => strL "just noise") (fun _ => []) [] 5 =
      .error (.keyError (strL "observation")) := rfl

/-- C4: after every executed round the live candidate equals the
candidate parsed in that round, even when that parse is empty (the
accept-empty policy of the sources): the per-round candidate trace is
exactly the list of parsed candidates of the executed rounds, and the
returned candidate is the last of them. -/
theorem C4_candidate_latest_parse :
    (∀ (oracle tool : Nat → Str) (maxSteps : Nat),
      (runToolAux oracle tool maxSteps 0 [] [] []).2.2 =
        (List.range ((runToolAux oracle tool maxSteps 0 [] [] []).2.1).length).map
          (fun j => (parseReactStep (oracle j)).candidate) ∧
      (0 < ((runToolAux oracle tool maxSteps 0 [] [] []).2.1).length →
        (runToolAux oracle tool maxSteps 0 [] [] []).1 =
          (parseReactStep (oracle
            (((runToolAux oracle tool maxSteps 0 [] [] []).2.1).length - 1))).candidate)) ∧
    (∀ (oracle : Nat → Str) (maxSteps : Nat),
      (runPlainAgent oracle maxSteps).2.2 =
        (List.range ((runPlainAgent oracle maxSteps).2.1).length).map
          (fun j => (parsePlainReact (oracle j)).candidate) ∧
      (0 < ((runPlainAgent oracle maxSteps).2.1).length →
        (runPlainAgent oracle maxSteps).1 =
          (parsePlainReact (oracle
            (((runPlainAgent oracle maxSteps).2.1).length - 1))).candidate)) := by
  constructor
  · intro oracle tool maxSteps
    obtain ⟨n, hn, heq, _, _⟩ := runToolAux_master oracle tool maxSteps 0 [] [] []
    have hlen : ((runToolAux oracle tool maxSteps 0 [] [] []).2.1).length = n := by
      rw [heq]
      simp
    constructor
    · rw [hlen, heq]
      simp only [List.reverse_nil, List.nil_append]
      apply List.map_congr_left
      intro j _
      rw [Nat.zero_add]
    · intro hpos
      rw [hlen] at hpos ⊢
      rw [heq]
      simp only [if_neg (by omega : ¬ n = 0)]
      rw [Nat.zero_add]
  · intro oracle maxSteps
    obtain ⟨n, hn, heq, _, _⟩ := runPlainAux_master oracle maxSteps 0 [] [] []
    have hlen : ((runPlainAgent oracle maxSteps).2.1).length = n := by
      show ((runPlainAux oracle maxSteps 0 [] [] []).2.1).length = n
      rw [heq]
      simp
    constructor
    · show (runPlainAux oracle maxSteps 0 [] [] []).2.2 = _
      rw [hlen, heq]
      simp only [List.reverse_nil, List.nil_append]
      apply List.map_congr_left
      intro j _
      rw [Nat.zero_add]
    · intro hpos
      rw [hlen] at hpos ⊢
      show (runPlainAux oracle maxSteps 0 [] [] []).1 = _
      rw [heq]
      simp only [if_neg (by omega : ¬ n = 0)]
      rw [Nat.zero_add]

theorem C4_witness :
    ((runToolAux (fun _ => strL "<FINAL_ANSWER>\nreturn 1\n</FINAL_ANSWER>") (fun _ => [])
        2 0 [] [] []).2.2 =
      (List.range ((runToolAux (fun _ => strL "<FINAL_ANSWER>\nreturn 1\n</FINAL_ANSWER>")
          (fun _ => []) 2 0 [] [] []).2.1).length).map
        (fun j => (parseReactStep ((fun _ => strL "<FINAL_ANSWER>\nreturn 1\n</FINAL_ANSWER>") j)).candidate)) ∧
    (0 < ((runToolAux (fun _ => strL "<FINAL_ANSWER>\nreturn 1\n</FINAL_ANSWER>") (fun _ => [])
        2 0 [] [] []).2.1).length ∧
      (runToolAux (fun _ => strL "<FINAL_ANSWER>\nreturn 1\n</FINAL_ANSWER>") (fun _ => [])
        2 0 [] [] []).1 =
        (parseReactStep ((fun _ => strL "<FINAL_ANSWER>\nreturn 1\n</FINAL_ANSWER>")
          (((runToolAux (fun _ => strL "<FINAL_ANSWER>\nreturn 1\n</FINAL_ANSWER>")
            (fun _ => []) 2 0 [] [] []).2.1).length - 1))).candidate) :=
  ⟨(C4_candidate_latest_parse.1 (fun _ => strL "<FINAL_ANSWER>\nreturn 1\n</FINAL_ANSWER>")
      (fun _ => []) 2).1,
   by decide,
   (C4_candidate_latest_parse.1 (fun _ => strL "<FINAL_ANSWER>\nreturn 1\n</FINAL_ANSWER>")
      (fun _ => []) 2).2 (by decide)⟩
